import Mathlib

/-!
Verification of the config-formatter repository (Go).

The development shallowly embeds the document-tree rewriting core of the
repository: the YAML node model of gopkg.in/yaml.v3 as an inductive tree,
the docker-compose module (sortMappingNode, addServiceSpacing,
normalizeEnvironment, normalizePorts, normalizeValues, parseEnvVar,
isNumericLike, shouldQuoteValue, getKeyOrder, formatNodeWithContext) and
the traefik module (sortMappingNode, getKeyOrder, formatNode).

Go's in-place mutation of the exclusively-owned node tree is rendered as
pure functions returning the rewritten tree.  Go's `sort.SliceStable` is
modelled by the stable insertion sort `sliceStable` below; the recursive
tree walks, which Go runs unboundedly on the acyclic tree, take an explicit
`fuel` bound that is irrelevant on any tree of depth at most `fuel`.
-/

/-- yaml.Node kinds (yaml.v3: DocumentNode, SequenceNode, MappingNode,
ScalarNode, AliasNode). -/
inductive Kind where
  | document
  | sequence
  | mapping
  | scalar
  | aliasNode
deriving DecidableEq

/-- A yaml.v3 node: Kind, Style, Tag, Value, HeadComment, LineComment,
FootComment, Content.  Styles are the yaml.v3 numeric constants
(0 = default, 2 = DoubleQuotedStyle). -/
inductive Node where
  | mk (kind : Kind) (style : Nat) (tag value : String)
      (headComment lineComment footComment : String)
      (content : List Node)

/-- yaml.DoubleQuotedStyle = 2 in yaml.v3. -/
def DoubleQuotedStyle : Nat := 2

def Node.kind : Node → Kind
  | .mk k _ _ _ _ _ _ _ => k

def Node.style : Node → Nat
  | .mk _ s _ _ _ _ _ _ => s

def Node.tag : Node → String
  | .mk _ _ t _ _ _ _ _ => t

def Node.value : Node → String
  | .mk _ _ _ v _ _ _ _ => v

def Node.headComment : Node → String
  | .mk _ _ _ _ h _ _ _ => h

def Node.lineComment : Node → String
  | .mk _ _ _ _ _ l _ _ => l

def Node.footComment : Node → String
  | .mk _ _ _ _ _ _ f _ => f

def Node.content : Node → List Node
  | .mk _ _ _ _ _ _ _ c => c

/-- Replace a node's HeadComment (models `node.HeadComment = h`). -/
def Node.setHeadComment : Node → String → Node
  | .mk k s t v _ l f c, h => .mk k s t v h l f c

/-- Replace a node's Content slice (models `node.Content = c`). -/
def Node.setContent : Node → List Node → Node
  | .mk k s t v h l f _, c => .mk k s t v h l f c

/-- The key/value pairs of a mapping's Content slice: Go iterates
`for i := 0; i < len(Content); i += 2` reading `Content[i]`/`Content[i+1]`. -/
def pairsOf : List Node → List (Node × Node)
  | k :: v :: rest => (k, v) :: pairsOf rest
  | _ => []

/-- Rebuild a Content slice from pairs (the `newContent` loop of
sortMappingNode). -/
def flattenPairs : List (Node × Node) → List Node
  | [] => []
  | (k, v) :: rest => k :: v :: flattenPairs rest

/-- The head-comment newline prefixing used both by the top-level spacing
loop of sortMappingNode and by addServiceSpacing: an empty head comment
becomes a bare newline, a head comment whose first byte is not a newline
is prefixed with one, any other head comment is left alone. -/
def prefixNewline (s : String) : String :=
  match s.data with
  | [] => "\n"
  | c :: _ => if c ≠ '\n' then "\n" ++ s else s

/-- The `pair` record built by sortMappingNode in both modules. -/
structure Pair where
  key : Node
  value : Node
  order : Nat
  originalIdx : Nat
  hasComment : Bool

/-- Go's `<` on strings: byte-lexicographic, which on UTF-8 data coincides
with this code-point-lexicographic comparison. -/
def charListLt : List Char → List Char → Bool
  | [], [] => false
  | [], _ :: _ => true
  | _ :: _, [] => false
  | c :: cs, d :: ds =>
    if c.toNat < d.toNat then true
    else if d.toNat < c.toNat then false
    else charListLt cs ds

def strLt (a b : String) : Bool := charListLt a.data b.data

/-- The comparison closure passed to sort.SliceStable in both modules:
any comparison that involves a comment-bearing pair falls back to original
index order; otherwise rank, then key name. -/
def lessPair (a b : Pair) : Bool :=
  if a.hasComment || b.hasComment then decide (a.originalIdx < b.originalIdx)
  else if a.order ≠ b.order then decide (a.order < b.order)
  else strLt a.key.value b.key.value

/-- One step of insertion sort: the new element bubbles left past the
already-placed elements (held in reversed order) while `less new prev`. -/
def insertRev (less : α → α → Bool) (x : α) : List α → List α
  | [] => [x]
  | y :: ys => if less x y then y :: insertRev less x ys else x :: y :: ys

/-- The insertion-sort phase of Go's sort.SliceStable as a list function.
Go's stable sort runs insertion sort on blocks of 20 elements before
merging, hence coincides with this insertion sort on every slice of at
most 20 elements (theorem goSliceStable_le20 below, over the faithful
full model goSliceStable), and with any stable sort whenever `less` is a
strict weak order. -/
def sliceStable (less : α → α → Bool) (l : List α) : List α :=
  (l.foldl (fun acc x => insertRev less x acc) []).reverse

/-- Slice read data[i] for the in-place model of the sort package. -/
def getIdx : List α → Nat → Option α
  | [], _ => none
  | x :: _, 0 => some x
  | _ :: xs, n + 1 => getIdx xs n

/-- Slice write data[i] = v; writes past the end are ignored (the sort
never performs one). -/
def setIdx : List α → Nat → α → List α
  | [], _, _ => []
  | _ :: xs, 0, v => v :: xs
  | x :: xs, n + 1, v => x :: setIdx xs n v

/-- data.Swap(i, j) of the sort package's lessSwap. -/
def swapIdx (l : List α) (i j : Nat) : List α :=
  match getIdx l i, getIdx l j with
  | some x, some y => setIdx (setIdx l i y) j x
  | _, _ => l

/-- data.Less(i, j) of the sort package's lessSwap. -/
def lessIdx (less : α → α → Bool) (l : List α) (i j : Nat) : Bool :=
  match getIdx l i, getIdx l j with
  | some x, some y => less x y
  | _, _ => false

/-- The inner loop of the sort package's insertionSort:
`for j := i; j > a && data.Less(j, j-1); j--` with a swap per step. -/
def isortInner (less : α → α → Bool) (a : Nat) : List α → Nat → List α
  | l, 0 => l
  | l, j + 1 =>
    if a ≤ j then
      if lessIdx less l (j + 1) j then isortInner less a (swapIdx l (j + 1) j) j
      else l
    else l

/-- The outer loop of the sort package's insertionSort:
`for i := a + 1; i < b; i++`; the fuel bounds its iterations and callers
always pass enough. -/
def isortOuter (less : α → α → Bool) (a b : Nat) : Nat → Nat → List α → List α
  | 0, _, l => l
  | fuel + 1, i, l =>
    if i < b then isortOuter less a b fuel (i + 1) (isortInner less a l i)
    else l

/-- The sort package's insertionSort(data, a, b). -/
def insertionSortGo (less : α → α → Bool) (a b : Nat) (l : List α) : List α :=
  isortOuter less a b (b - a) (a + 1) l

/-- The sort package's swapRange(data, a, b, n). -/
def swapRange : List α → Nat → Nat → Nat → List α
  | l, _, _, 0 => l
  | l, a, b, n + 1 => swapRange (swapIdx l a b) (a + 1) (b + 1) n

/-- The gcd-style loop of the sort package's rotate; the fuel bounds its
iterations. -/
def rotateAux (m : Nat) : Nat → List α → Nat → Nat → List α
  | 0, l, i, _ => swapRange l (m - i) m i
  | fuel + 1, l, i, j =>
    if i = j then swapRange l (m - i) m i
    else if j < i then rotateAux m fuel (swapRange l (m - i) m j) (i - j) j
    else rotateAux m fuel (swapRange l (m - i) (m + j - i) i) i (j - i)

/-- The sort package's rotate(data, a, m, b). -/
def rotateGo (l : List α) (a m b : Nat) : List α :=
  rotateAux m (a + b + 1) l (m - a) (b - m)

/-- The binary-search loops of symMerge:
`for i < j` with `h := (i+j)/2` moving `i` to `h+1` when the predicate
holds and `j` to `h` otherwise; the fuel bounds the iterations. -/
def bsearchLoop (pred : Nat → Bool) : Nat → Nat → Nat → Nat
  | 0, i, _ => i
  | fuel + 1, i, j =>
    if i < j then
      if pred ((i + j) / 2) then bsearchLoop pred fuel ((i + j) / 2 + 1) j
      else bsearchLoop pred fuel i ((i + j) / 2)
    else i

/-- The swap loop `for k := a; k < stop; k++` of symMerge's first
direct-insertion branch. -/
def bubbleUpAux : Nat → List α → Nat → Nat → List α
  | 0, l, _, _ => l
  | fuel + 1, l, k, stop =>
    if k < stop then bubbleUpAux fuel (swapIdx l k (k + 1)) (k + 1) stop else l

/-- The swap loop `for k := m; k > stop; k--` of symMerge's second
direct-insertion branch. -/
def bubbleDownAux : Nat → List α → Nat → Nat → List α
  | 0, l, _, _ => l
  | fuel + 1, l, k, stop =>
    if stop < k then bubbleDownAux fuel (swapIdx l k (k - 1)) (k - 1) stop else l

/-- The sort package's symMerge(data, a, m, b): the two one-element
direct-insertion branches (binary search, then adjacent swaps), else the
symmetric-decomposition search, rotate and two recursive calls.  The fuel
bounds the recursion depth; the range halves every call, so the slice
length plus two that the callers pass is always enough. -/
def symMergeAux (less : α → α → Bool) : Nat → Nat → Nat → Nat → List α → List α
  | 0, _, _, _, l => l
  | fuel + 1, a, m, b, l =>
    if m - a = 1 then
      bubbleUpAux (b + 1) l a (bsearchLoop (fun h => lessIdx less l h a) (b + 1) m b - 1)
    else if b - m = 1 then
      bubbleDownAux (m + 1) l m (bsearchLoop (fun h => !lessIdx less l m h) (m + 1) a m)
    else
      let mid := (a + b) / 2
      let n := mid + m
      let s0 := if mid < m then n - b else a
      let r0 := if mid < m then mid else m
      let start := bsearchLoop (fun c => !lessIdx less l (n - 1 - c) c) (r0 + 1) s0 r0
      let e := n - start
      let l1 := if start < m ∧ m < e then rotateGo l start m e else l
      let l2 := if a < start ∧ start < mid then symMergeAux less fuel a start mid l1 else l1
      if mid < e then symMergeAux less fuel mid e b l2 else l2

/-- The block phase of the sort package's stable: insertion sort on
consecutive 20-element blocks, then the tail block. -/
def isortBlocks (less : α → α → Bool) (n : Nat) : Nat → Nat → Nat → List α → List α
  | 0, a, _, l => insertionSortGo less a n l
  | fuel + 1, a, b, l =>
    if b ≤ n then isortBlocks less n fuel b (b + 20) (insertionSortGo less a b l)
    else insertionSortGo less a n l

/-- One merge pass of the sort package's stable at block size `bs`:
`for b <= n` merging adjacent blocks, then the tail merge. -/
def mergeBlocksInner (less : α → α → Bool) (n bs : Nat) : Nat → Nat → Nat → List α → List α
  | 0, a, _, l => if a + bs < n then symMergeAux less (n + 2) a (a + bs) n l else l
  | fuel + 1, a, b, l =>
    if b ≤ n then
      mergeBlocksInner less n bs fuel b (b + 2 * bs)
        (symMergeAux less (n + 2) a (a + bs) b l)
    else if a + bs < n then symMergeAux less (n + 2) a (a + bs) n l else l

/-- The doubling loop `for blockSize < n` of the sort package's stable. -/
def mergeBlocksOuter (less : α → α → Bool) (n : Nat) : Nat → Nat → List α → List α
  | 0, _, l => l
  | fuel + 1, bs, l =>
    if bs < n then
      mergeBlocksOuter less n fuel (2 * bs) (mergeBlocksInner less n bs (n + 1) 0 (2 * bs) l)
    else l

/-- Go's sort.SliceStable on the pairs slice: stable(data, n) with
blockSize 20 — insertion sort on 20-element blocks, then symMerge passes
at doubling block sizes.  On slices of at most 20 elements this is
exactly the insertion sort `sliceStable` (theorem goSliceStable_le20). -/
def goSliceStable (less : α → α → Bool) (l : List α) : List α :=
  mergeBlocksOuter less l.length (l.length + 1) 20
    (isortBlocks less l.length (l.length + 1) 0 20 l)

namespace dockercompose

/-- Top-level keys order (modules/dockercompose: getKeyOrder). -/
def topLevelOrder : List (String × Nat) :=
  [("version", 1), ("name", 2), ("include", 3), ("networks", 10),
   ("volumes", 20), ("configs", 30), ("secrets", 40), ("models", 50),
   ("services", 1000)]

/-- Service-level keys order (modules/dockercompose: getKeyOrder). -/
def serviceLevelOrder : List (String × Nat) :=
  [("image", 1), ("build", 2), ("container_name", 3), ("hostname", 4),
   ("domainname", 5), ("platform", 6),
   ("command", 10), ("entrypoint", 11), ("init", 12),
   ("environment", 20), ("env_file", 21),
   ("ports", 30), ("expose", 31),
   ("volumes", 40), ("volumes_from", 41), ("devices", 42), ("tmpfs", 43),
   ("networks", 50), ("network_mode", 51), ("links", 52),
   ("external_links", 53), ("mac_address", 54),
   ("depends_on", 60), ("secrets", 65), ("configs", 66),
   ("restart", 70), ("pull_policy", 71), ("pull_refresh_after", 72),
   ("deploy", 80), ("develop", 81), ("healthcheck", 90),
   ("labels", 100), ("label_file", 101), ("annotations", 102),
   ("attach", 103), ("logging", 110),
   ("extra_hosts", 120), ("dns", 121), ("dns_opt", 122), ("dns_search", 123),
   ("security_opt", 130), ("cap_add", 131), ("cap_drop", 132),
   ("privileged", 133), ("userns_mode", 134), ("cgroup", 135),
   ("cgroup_parent", 136), ("ipc", 137), ("pid", 138), ("uts", 139),
   ("isolation", 140), ("read_only", 141),
   ("user", 150), ("working_dir", 151), ("group_add", 152),
   ("stdin_open", 160), ("tty", 161),
   ("runtime", 170), ("scale", 171), ("extends", 172), ("profiles", 173),
   ("cpus", 180), ("cpu_count", 181), ("cpu_percent", 182),
   ("cpu_shares", 183), ("cpu_period", 184), ("cpu_quota", 185),
   ("cpu_rt_runtime", 186), ("cpu_rt_period", 187), ("cpuset", 188),
   ("mem_limit", 190), ("mem_reservation", 191), ("mem_swappiness", 192),
   ("memswap_limit", 193),
   ("pids_limit", 194), ("blkio_config", 195), ("oom_kill_disable", 196),
   ("oom_score_adj", 197),
   ("shm_size", 200),
   ("stop_signal", 210), ("stop_grace_period", 211),
   ("ulimits", 220), ("sysctls", 221), ("storage_opt", 222),
   ("device_cgroup_rules", 223), ("credential_spec", 224),
   ("gpus", 225), ("models", 230), ("provider", 231), ("use_api_socket", 232),
   ("post_start", 240), ("pre_stop", 241)]

/-- Build configuration keys order. -/
def buildOrder : List (String × Nat) :=
  [("context", 1), ("dockerfile", 2), ("args", 3), ("target", 4),
   ("cache_from", 5), ("labels", 6)]

/-- Deploy configuration keys order. -/
def deployOrder : List (String × Nat) :=
  [("mode", 1), ("replicas", 2), ("placement", 3), ("update_config", 4),
   ("rollback_config", 5), ("resources", 6), ("restart_policy", 7),
   ("labels", 8), ("endpoint_mode", 9)]

/-- Network configuration keys order. -/
def networkOrder : List (String × Nat) :=
  [("driver", 1), ("driver_opts", 2), ("enable_ipv4", 3), ("enable_ipv6", 4),
   ("ipam", 5), ("external", 10), ("internal", 11), ("attachable", 12),
   ("name", 20), ("labels", 30)]

/-- Volume configuration keys order. -/
def volumeOrder : List (String × Nat) :=
  [("driver", 1), ("driver_opts", 2), ("external", 10), ("name", 20),
   ("labels", 30)]

/-- Secrets configuration keys order (top-level). -/
def secretsOrder : List (String × Nat) :=
  [("file", 1), ("environment", 2), ("external", 10), ("name", 20)]

/-- Configs configuration keys order (top-level). -/
def configsOrder : List (String × Nat) :=
  [("file", 1), ("environment", 2), ("content", 3), ("external", 10),
   ("name", 20)]

/-- modules/dockercompose getKeyOrder: the top-level table is consulted
only when isTopLevel, the service-level table only otherwise; then the
build, deploy, network, volume, secrets and configs tables are tried in
that fixed order, and a miss everywhere yields 1000. -/
def getKeyOrder (key : String) (isTopLevel : Bool) : Nat :=
  ((if isTopLevel then topLevelOrder.lookup key else serviceLevelOrder.lookup key)
    <|> buildOrder.lookup key
    <|> deployOrder.lookup key
    <|> networkOrder.lookup key
    <|> volumeOrder.lookup key
    <|> secretsOrder.lookup key
    <|> configsOrder.lookup key).getD 1000

/-- The loop body of addServiceSpacing: Go touches `Content[i]` for every
even index i > 0, prefixing a newline to that key node's head comment. -/
def spaceKeysAux (i : Nat) : List Node → List Node
  | [] => []
  | n :: rest =>
      (if i % 2 = 0 ∧ i ≠ 0 then n.setHeadComment (prefixNewline n.headComment)
       else n) :: spaceKeysAux (i + 1) rest

/-- addServiceSpacing: prefix a newline to the head comment of every key
node of the services mapping except the first. -/
def addServiceSpacing (servicesNode : Node) : Node :=
  if servicesNode.kind ≠ Kind.mapping ∨ servicesNode.content.isEmpty then
    servicesNode
  else
    servicesNode.setContent (spaceKeysAux 0 servicesNode.content)

/-- The pair-building loop of dockercompose sortMappingNode, including the
addServiceSpacing call performed while collecting pairs: the services
value subtree is replaced by its spaced version when this mapping is the
top level.  `i` is the Content index of the key node. -/
def buildPairsAux (isTopLevel : Bool) (i : Nat) : List Node → List Pair
  | k :: v :: rest =>
      let spaced :=
        if isTopLevel ∧ k.value = "services" ∧ v.kind = Kind.mapping then
          addServiceSpacing v
        else v
      { key := k, value := spaced,
        order := getKeyOrder k.value isTopLevel,
        originalIdx := i,
        hasComment := k.headComment ≠ "" ∨ k.lineComment ≠ "" ∨
          k.footComment ≠ "" ∨ v.headComment ≠ "" } ::
        buildPairsAux isTopLevel (i + 2) rest
  | _ => []

def buildPairs (isTopLevel : Bool) (content : List Node) : List Pair :=
  buildPairsAux isTopLevel 0 content

/-- The post-sort top-level spacing loop of sortMappingNode: every sorted
pair except the first gets a newline prefixed to its key's head comment. -/
def injectTopHeads : List Pair → List Pair
  | [] => []
  | p :: rest =>
      p :: rest.map fun q =>
        { q with key := q.key.setHeadComment (prefixNewline q.key.headComment) }

/-- dockercompose sortMappingNode: collect pairs (spacing the services
block when at top level), stable-sort them with the comment-freezing
comparison, then at top level prefix newlines to the head comments of all
sorted keys but the first, and rebuild Content. -/
def sortMappingNode (node : Node) (isTopLevel : Bool) : Node :=
  if node.kind ≠ Kind.mapping ∨ node.content.isEmpty then node
  else
    let ps := sliceStable lessPair (buildPairs isTopLevel node.content)
    let ps := if isTopLevel then injectTopHeads ps else ps
    node.setContent (flattenPairs (ps.map fun p => (p.key, p.value)))

end dockercompose

def Node.setTag : Node → String → Node
  | .mk k s _ v h l f c, t => .mk k s t v h l f c

def Node.setStyle : Node → Nat → Node
  | .mk k _ t v h l f c, st => .mk k st t v h l f c

/-- strings.ContainsAny: does `s` contain any character of `chars`? -/
def containsAny (s chars : String) : Bool :=
  s.data.any fun c => chars.data.contains c

/-- Mantissa digits (base 10). -/
def digitsToNat10 (ds : List Char) : Nat :=
  ds.foldl (fun a c => a * 10 + (c.toNat - 48)) 0

def isHexDigitChar (c : Char) : Bool :=
  c.isDigit || ('a' ≤ c.toLower && c.toLower ≤ 'f')

def hexVal (c : Char) : Nat :=
  if c.isDigit then c.toNat - 48 else c.toLower.toNat - 87

/-- Mantissa digits (base 16). -/
def digitsToNat16 (ds : List Char) : Nat :=
  ds.foldl (fun a c => a * 16 + hexVal c) 0

/-- strconv.ParseInt(value, 10, 64) succeeds: optional sign, then at least
one decimal digit (underscores are rejected since the base is given
explicitly), and the value fits into a signed 64-bit integer. -/
def goParseInt64Ok (s : String) : Bool :=
  match s.data with
  | [] => false
  | c :: rest =>
    let neg := c = '-'
    let ds := if c = '-' ∨ c = '+' then rest else c :: rest
    !ds.isEmpty && ds.all Char.isDigit &&
      (let n := digitsToNat10 ds
       if neg then n ≤ 2 ^ 63 else n < 2 ^ 63)

/-- The special float strings strconv.ParseFloat accepts in full:
"nan" without sign, "inf"/"infinity" with optional sign, all
case-insensitively. -/
def floatSpecialOk (s : String) : Bool :=
  let t := String.mk (s.data.map Char.toLower)
  t = "nan" || t = "inf" || t = "infinity" || t = "+inf" || t = "-inf" ||
    t = "+infinity" || t = "-infinity"

/-- The state machine of strconv's underscoreOK: every underscore must sit
between digits (or follow a base prefix); `saw` is one of the marks
a caret (start), a zero (digit), an underscore, or an exclamation mark
(anything else). -/
def underscoreOKAux (hex : Bool) (saw : Char) : List Char → Bool
  | [] => saw ≠ '_'
  | c :: rest =>
    if c.isDigit || (hex && isHexDigitChar c) then underscoreOKAux hex '0' rest
    else if c = '_' then
      (if saw = '0' then underscoreOKAux hex '_' rest else false)
    else if saw = '_' then false
    else underscoreOKAux hex '!' rest

/-- strconv.underscoreOK. -/
def underscoreOK (s : String) : Bool :=
  let cs :=
    match s.data with
    | c :: rest => if c = '-' ∨ c = '+' then rest else c :: rest
    | [] => []
  match cs with
  | '0' :: b :: rest =>
      if b.toLower = 'x' ∨ b.toLower = 'b' ∨ b.toLower = 'o' then
        underscoreOKAux (b.toLower = 'x') '0' rest
      else underscoreOKAux false '^' cs
  | _ => underscoreOKAux false '^' cs

/-- The mantissa loop of strconv's readFloat: consume digits (by `isD`),
underscores, and at most one dot; returns the digits, the count of digits
after the dot (if a dot was seen), whether an underscore was seen, and the
unconsumed rest. -/
def scanMant (isD : Char → Bool) : List Char → List Char → Option Nat → Bool →
    List Char × Option Nat × Bool × List Char
  | [], acc, afterDot, sawU => (acc, afterDot, sawU, [])
  | c :: rest, acc, afterDot, sawU =>
    if c = '_' then scanMant isD rest acc afterDot true
    else if c = '.' then
      (if afterDot.isSome then (acc, afterDot, sawU, c :: rest)
       else scanMant isD rest acc (some 0) sawU)
    else if isD c then scanMant isD rest (acc ++ [c]) (afterDot.map (· + 1)) sawU
    else (acc, afterDot, sawU, c :: rest)

/-- The exponent-digit loop of readFloat: digits with interspersed
underscores. -/
def scanExpDigits : List Char → List Char × Bool × List Char
  | [] => ([], false, [])
  | c :: rest =>
    if c.isDigit then
      let (d, u, r) := scanExpDigits rest
      (c :: d, u, r)
    else if c = '_' then
      let (d, _, r) := scanExpDigits rest
      (d, true, r)
    else ([], false, c :: rest)

/-- The exponent part after the e/E (or p/P) marker: optional sign, then a
digit-led run; the whole rest of the string must be consumed. -/
def scanExp (cs : List Char) : Option (Int × Bool) :=
  let (esign, cs1) : Int × List Char :=
    match cs with
    | '+' :: r => (1, r)
    | '-' :: r => (-1, r)
    | r => (1, r)
  match cs1 with
  | [] => none
  | c :: _ =>
    if ¬c.isDigit then none
    else
      let (ds, u, rest) := scanExpDigits cs1
      if rest.isEmpty then some (esign * (digitsToNat10 ds : Nat), u) else none

/-- Decimal number syntax of readFloat: mantissa with at most one dot and
at least one digit, then an optional e/E exponent; returns
(hex?, mantissa, exponent, underscores?). -/
def scanDec (cs : List Char) : Option (Bool × Nat × Int × Bool) :=
  let (ds, afterDot, sawU, rest) := scanMant Char.isDigit cs [] none false
  if ds.isEmpty then none
  else
    match rest with
    | [] => some (false, digitsToNat10 ds, -(afterDot.getD 0 : Nat), sawU)
    | c :: rest2 =>
      if c.toLower = 'e' then
        match scanExp rest2 with
        | some (e, u2) =>
            some (false, digitsToNat10 ds, e - (afterDot.getD 0 : Nat), sawU || u2)
        | none => none
      else none

/-- Hexadecimal float syntax of readFloat (after the 0x prefix): hex
mantissa with at most one dot and at least one digit, then a mandatory
p/P binary exponent. -/
def scanHex (cs : List Char) : Option (Bool × Nat × Int × Bool) :=
  let (ds, afterDot, sawU, rest) := scanMant isHexDigitChar cs [] none false
  if ds.isEmpty then none
  else
    match rest with
    | c :: rest2 =>
      if c.toLower = 'p' then
        match scanExp rest2 with
        | some (e, u2) =>
            some (true, digitsToNat16 ds, e - 4 * (afterDot.getD 0 : Nat), sawU || u2)
        | none => none
      else none
    | [] => none

/-- Number syntax of readFloat: optional sign, then either a 0x-prefixed
hexadecimal float or a decimal float. -/
def scanNumber (cs : List Char) : Option (Bool × Nat × Int × Bool) :=
  let cs1 :=
    match cs with
    | c :: rest => if c = '+' ∨ c = '-' then rest else c :: rest
    | [] => []
  match cs1 with
  | '0' :: x :: rest => if x.toLower = 'x' then scanHex rest else scanDec cs1
  | _ => scanDec cs1

/-- Smallest magnitude that rounds to infinity in float64
(half-to-even boundary above MaxFloat64). -/
def float64OverflowBound : Nat := 2 ^ 1024 - 2 ^ 970

/-- n * 10^e ≥ b, exactly. -/
def mulPow10GE (n : Nat) (e : Int) (b : Nat) : Bool :=
  match e with
  | .ofNat k => b ≤ n * 10 ^ k
  | .negSucc k => b * 10 ^ (k + 1) ≤ n

/-- n * 2^e ≥ b, exactly. -/
def mulPow2GE (n : Nat) (e : Int) (b : Nat) : Bool :=
  match e with
  | .ofNat k => b ≤ n * 2 ^ k
  | .negSucc k => b * 2 ^ (k + 1) ≤ n

/-- n * 10^e ≤ 2^(-1075): a nonzero decimal value this small rounds to
zero, which ParseFloat reports as a range error. -/
def pow10Underflow (n : Nat) (e : Int) : Bool :=
  match e with
  | .ofNat _ => false
  | .negSucc k => n * 2 ^ 1075 ≤ 10 ^ (k + 1)

/-- n * 2^e ≤ 2^(-1075). -/
def pow2Underflow (n : Nat) (e : Int) : Bool :=
  match e + 1075 with
  | .ofNat k => n * 2 ^ k ≤ 1
  | .negSucc k => n ≤ 2 ^ (k + 1)

/-- strconv.ParseFloat(value, 64) succeeds: one of the special strings, or
syntactically valid (including underscore placement) with the exact value
neither rounding to infinity nor rounding a nonzero mantissa to zero.
Go caps run-away explicit exponents at 10000 while reading; the exact
exponent used here accepts and rejects the same strings. -/
def goParseFloat64Ok (s : String) : Bool :=
  if floatSpecialOk s then true
  else
    match scanNumber s.data with
    | none => false
    | some (hex, n, e, sawU) =>
      if sawU && !underscoreOK s then false
      else if n = 0 then true
      else if hex then
        !mulPow2GE n e float64OverflowBound && !pow2Underflow n e
      else
        !mulPow10GE n e float64OverflowBound && !pow10Underflow n e

namespace dockercompose

/-- Split a character list at its first equals sign (strings.Index plus
the two slices of parseEnvVar). -/
def splitFirstEq : List Char → Option (List Char × List Char)
  | [] => none
  | c :: rest =>
    if c = '=' then some ([], rest)
    else
      match splitFirstEq rest with
      | some (k, v) => some (c :: k, v)
      | none => none

/-- parseEnvVar: split at the first equals sign; fails without one or with
an empty key segment. -/
def parseEnvVar (envStr : String) : Option (String × String) :=
  match splitFirstEq envStr.data with
  | none => none
  | some (k, v) => if k.isEmpty then none else some (String.mk k, String.mk v)

/-- isNumericLike: the value parses as a 64-bit integer or float. -/
def isNumericLike (value : String) : Bool :=
  goParseInt64Ok value || goParseFloat64Ok value

/-- The special YAML characters of shouldQuoteValue (braces, brackets,
comma, colon, ampersand, star, hash, question mark, pipe, dash, angle
brackets, equals, bang, percent, at sign, backslash). -/
def specialChars : String := "\x7b\x7d[],:&*#?|-<>=!%@\\"

/-- The boolean-like literals shouldQuoteValue quotes. -/
def yamlBools : List String :=
  ["true", "false", "yes", "no", "on", "off", "y", "n"]

/-- Does the value start with a double quote or an apostrophe (code point
39)?  Models the two strings.HasPrefix checks of shouldQuoteValue. -/
def startsWithQuoteChar (s : String) : Bool :=
  match s.data with
  | d :: _ => d = '"' || d.toNat = 39
  | [] => false

/-- shouldQuoteValue: quote empty values, values with spaces or tabs,
numeric-looking values, values with special YAML characters, values
starting with a quote character, and boolean-like literals.  (Go lowers
the value with the full Unicode mapping; for comparison against these
ASCII literals the ASCII mapping used here agrees, since no non-ASCII
character lower-cases to a letter occurring in them.) -/
def shouldQuoteValue (value : String) : Bool :=
  if value = "" then true
  else if containsAny value " \t" then true
  else if isNumericLike value then true
  else if containsAny value specialChars then true
  else if startsWithQuoteChar value then true
  else yamlBools.contains (String.mk (value.data.map Char.toLower))

/-- The accumulation loop of normalizeEnvironment over the sequence items:
`keys` records first-seen key order, the association list (newest first)
models the Go map, so later duplicates overwrite earlier values.
Non-scalar and unparsable items are skipped. -/
def envFoldStep (acc : List String × List (String × String)) (item : Node) :
    List String × List (String × String) :=
  if item.kind ≠ Kind.scalar then acc
  else
    match parseEnvVar item.value with
    | none => acc
    | some (k, v) =>
      let keys := if (acc.2.lookup k).isSome then acc.1 else acc.1 ++ [k]
      (keys, (k, v) :: acc.2)

/-- normalizeEnvironment: only sequences are touched; if at least one item
parses, the node becomes a mapping (tag !!map, default style, other fields
kept) whose pairs list the first-seen keys with their last values, each
key unquoted and each value double-quoted exactly when shouldQuoteValue
says so. -/
def normalizeEnvironment (node : Node) : Node :=
  if node.kind ≠ Kind.sequence then node
  else
    let (keys, envMap) := node.content.foldl envFoldStep ([], [])
    if keys.isEmpty then node
    else
      Node.mk Kind.mapping 0 "!!map" node.value node.headComment
        node.lineComment node.footComment
        ((keys.map fun key =>
          let v := (envMap.lookup key).getD ""
          [Node.mk Kind.scalar 0 "!!str" key "" "" "" [],
           Node.mk Kind.scalar (if shouldQuoteValue v then DoubleQuotedStyle else 0)
             "!!str" v "" "" "" []]).flatten)

/-- normalizePorts: on a sequence, force tag !!str and double-quoted style
on every scalar element; anything else is untouched. -/
def normalizePorts (node : Node) : Node :=
  if node.kind ≠ Kind.sequence then node
  else
    node.setContent (node.content.map fun item =>
      if item.kind = Kind.scalar then
        (item.setTag "!!str").setStyle DoubleQuotedStyle
      else item)

/-- normalizeValues: dispatch on the enclosing key name. -/
def normalizeValues (node : Node) (parentKey : String) : Node :=
  if parentKey = "environment" then normalizeEnvironment node
  else if parentKey = "ports" then normalizePorts node
  else node

/-- formatNodeWithContext: sort mappings, then normalize by the enclosing
key, then recurse — into Content[0] of the root document, into each value
of a mapping with the parent key set to its key's name, and into every
child of other nodes with the parent key unchanged.  `fuel` bounds the
recursion depth; it is irrelevant on trees of depth at most `fuel`. -/
def formatNodeWithContext (fuel : Nat) (node : Node) (isRoot : Bool)
    (parentKey : String) : Node :=
  match fuel with
  | 0 => node
  | fuel + 1 =>
    let n1 := if node.kind = Kind.mapping then sortMappingNode node isRoot else node
    let n2 := normalizeValues n1 parentKey
    if isRoot ∧ n2.kind = Kind.document ∧ ¬n2.content.isEmpty then
      match n2.content with
      | first :: rest => n2.setContent (formatNodeWithContext fuel first true "" :: rest)
      | [] => n2
    else if n2.kind = Kind.mapping then
      n2.setContent (flattenPairs ((pairsOf n2.content).map fun p =>
        (p.1, formatNodeWithContext fuel p.2 false p.1.value)))
    else
      n2.setContent (n2.content.map fun child =>
        formatNodeWithContext fuel child false parentKey)

end dockercompose

namespace traefik

/-- Top-level Traefik configuration keys order. -/
def topLevelOrder : List (String × Nat) :=
  [("global", 1), ("log", 2), ("accessLog", 3), ("api", 4), ("ping", 5),
   ("metrics", 6), ("tracing", 7), ("hostResolver", 8),
   ("entryPoints", 10), ("providers", 11), ("certificatesResolvers", 12),
   ("http", 100), ("tcp", 101), ("udp", 102), ("tls", 103),
   ("experimental", 200), ("pilot", 201)]

/-- HTTP section keys order. -/
def httpOrder : List (String × Nat) :=
  [("routers", 1), ("services", 2), ("middlewares", 3),
   ("serversTransports", 4)]

/-- TCP section keys order. -/
def tcpOrder : List (String × Nat) :=
  [("routers", 1), ("services", 2), ("middlewares", 3),
   ("serversTransports", 4)]

/-- UDP section keys order. -/
def udpOrder : List (String × Nat) :=
  [("routers", 1), ("services", 2)]

/-- Router configuration keys order. -/
def routerOrder : List (String × Nat) :=
  [("entryPoints", 1), ("rule", 2), ("ruleSyntax", 3), ("priority", 4),
   ("service", 5), ("middlewares", 6), ("tls", 7), ("parentRefs", 8),
   ("observability", 9)]

/-- Service configuration keys order. -/
def serviceOrder : List (String × Nat) :=
  [("loadBalancer", 1), ("weighted", 2), ("mirroring", 3), ("failover", 4),
   ("highestRandomWeight", 5)]

/-- LoadBalancer configuration keys order. -/
def loadBalancerOrder : List (String × Nat) :=
  [("servers", 1), ("strategy", 2), ("healthCheck", 3),
   ("passiveHealthCheck", 4), ("sticky", 5), ("serversTransport", 6),
   ("passHostHeader", 7), ("responseForwarding", 8)]

/-- Middleware configuration keys order. -/
def middlewareOrder : List (String × Nat) :=
  [("addPrefix", 1), ("stripPrefix", 2), ("stripPrefixRegex", 3),
   ("replacePath", 4), ("replacePathRegex", 5),
   ("chain", 10), ("ipWhiteList", 11), ("ipAllowList", 12),
   ("headers", 20), ("errors", 21),
   ("rateLimit", 30), ("circuitBreaker", 31), ("inFlightReq", 32),
   ("redirectRegex", 40), ("redirectScheme", 41),
   ("basicAuth", 50), ("digestAuth", 51), ("forwardAuth", 52),
   ("buffering", 60), ("compress", 61), ("contentType", 62), ("grpcWeb", 63),
   ("passTLSClientCert", 70), ("retry", 71), ("plugin", 80)]

/-- Entry point configuration keys order. -/
def entryPointOrder : List (String × Nat) :=
  [("address", 1), ("asDefault", 2), ("transport", 3), ("http", 4),
   ("http2", 5), ("http3", 6), ("proxyProtocol", 7), ("forwardedHeaders", 8)]

/-- TLS configuration keys order. -/
def tlsOrder : List (String × Nat) :=
  [("certificates", 1), ("options", 2), ("stores", 3), ("certResolver", 4),
   ("domains", 5)]

/-- Provider configuration keys order. -/
def providerOrder : List (String × Nat) :=
  [("providersThrottleDuration", 1), ("docker", 10), ("file", 11),
   ("kubernetes", 12), ("kubernetesGateway", 13), ("kubernetesCRD", 14),
   ("consulCatalog", 15), ("nomad", 16), ("ecs", 17), ("marathon", 18),
   ("rancher", 19), ("rest", 20), ("etcd", 21), ("consul", 22),
   ("zooKeeper", 23), ("redis", 24), ("http", 25)]

/-- modules/traefik getKeyOrder: the top-level table is consulted only
when isTopLevel; every other lookup runs through one fixed fall-through
chain — router, service, loadBalancer, middleware, entryPoint, tls,
provider, then the http/tcp/udp protocol tables — regardless of where the
mapping sits; a miss everywhere yields 1000. -/
def getKeyOrder (key : String) (isTopLevel : Bool) : Nat :=
  ((if isTopLevel then topLevelOrder.lookup key else none)
    <|> routerOrder.lookup key
    <|> serviceOrder.lookup key
    <|> loadBalancerOrder.lookup key
    <|> middlewareOrder.lookup key
    <|> entryPointOrder.lookup key
    <|> tlsOrder.lookup key
    <|> providerOrder.lookup key
    <|> httpOrder.lookup key
    <|> tcpOrder.lookup key
    <|> udpOrder.lookup key).getD 1000

/-- The pair-building loop of traefik sortMappingNode (no value
normalization and no service spacing in this module). -/
def buildPairsAux (isTopLevel : Bool) (i : Nat) : List Node → List Pair
  | k :: v :: rest =>
      { key := k, value := v,
        order := getKeyOrder k.value isTopLevel,
        originalIdx := i,
        hasComment := k.headComment ≠ "" ∨ k.lineComment ≠ "" ∨
          k.footComment ≠ "" ∨ v.headComment ≠ "" } ::
        buildPairsAux isTopLevel (i + 2) rest
  | _ => []

def buildPairs (isTopLevel : Bool) (content : List Node) : List Pair :=
  buildPairsAux isTopLevel 0 content

/-- The post-sort top-level spacing loop of traefik sortMappingNode. -/
def injectTopHeads : List Pair → List Pair
  | [] => []
  | p :: rest =>
      p :: rest.map fun q =>
        { q with key := q.key.setHeadComment (prefixNewline q.key.headComment) }

/-- traefik sortMappingNode: collect pairs, stable-sort them with the
comment-freezing comparison, at top level prefix newlines to the head
comments of all sorted keys but the first, and rebuild Content. -/
def sortMappingNode (node : Node) (isTopLevel : Bool) : Node :=
  if node.kind ≠ Kind.mapping ∨ node.content.isEmpty then node
  else
    let ps := sliceStable lessPair (buildPairs isTopLevel node.content)
    let ps := if isTopLevel then injectTopHeads ps else ps
    node.setContent (flattenPairs (ps.map fun p => (p.key, p.value)))

/-- traefik formatNode: sort mappings and recurse — into Content[0] of the
root document, and into every child otherwise.  No value normalization.
`fuel` bounds the recursion depth. -/
def formatNode (fuel : Nat) (node : Node) (isRoot : Bool) : Node :=
  match fuel with
  | 0 => node
  | fuel + 1 =>
    let n1 := if node.kind = Kind.mapping then sortMappingNode node isRoot else node
    if isRoot ∧ n1.kind = Kind.document ∧ ¬n1.content.isEmpty then
      match n1.content with
      | first :: rest => n1.setContent (formatNode fuel first true :: rest)
      | [] => n1
    else n1.setContent (n1.content.map fun child => formatNode fuel child false)

end traefik

/-- Drop one leading newline from a head comment: the canonical image under
which injected blank-line markers (prefixNewline) are invisible. -/
def canonHead (s : String) : String :=
  match s.data with
  | c :: rest => if c = '\n' then String.mk rest else s
  | [] => s

def nullNode : Node := .mk Kind.scalar 0 "" "" "" "" "" []

/-- The key names of a mapping node, in Content order. -/
def keyNames (n : Node) : List String := (pairsOf n.content).map fun p => p.1.value

/-- A key node modulo an injected newline marker on its head comment. -/
def canonKey (k : Node) : Node := k.setHeadComment (canonHead k.headComment)

/-- canonHead applied at every even Content position: the canonical image
under which addServiceSpacing is invisible. -/
def canonKeysAux (i : Nat) : List Node → List Node
  | [] => []
  | n :: rest => (if i % 2 = 0 then canonKey n else n) :: canonKeysAux (i + 1) rest

/-- A mapping pair modulo injected spacing: the key modulo a newline marker
on its head comment, the value modulo newline markers on the head comments
at its even Content positions. -/
def canonPairKV (p : Node × Node) : Node × Node :=
  (canonKey p.1, p.2.setContent (canonKeysAux 0 p.2.content))

mutual
/-- Well-formed trees: every mapping node has an even number of Content
entries (the pairing the parser guarantees and Go indexes by `i`/`i+1`). -/
def wfNode : Node → Bool
  | .mk k _ _ _ _ _ _ c =>
    (!(k == Kind.mapping) || c.length % 2 == 0) && wfList c
def wfList : List Node → Bool
  | [] => true
  | n :: ns => wfNode n && wfList ns
end

mutual
/-- Everything about every node of a tree except its position among its
siblings and an injected newline marker on its head comment: kind, tag,
value, style, head comment modulo one leading newline, line comment, foot
comment, collected in preorder. -/
def collectAll : Node → List (Kind × String × String × Nat × String × String × String)
  | .mk k st t v h l f c => (k, t, v, st, canonHead h, l, f) :: collectAllList c
def collectAllList : List Node → List (Kind × String × String × Nat × String × String × String)
  | [] => []
  | n :: ns => collectAll n ++ collectAllList ns
end

/-- The environment entries that parse: scalar items split by parseEnvVar,
in sequence order. -/
def parsedOf (items : List Node) : List (String × String) :=
  items.filterMap fun it =>
    if it.kind = Kind.scalar then dockercompose.parseEnvVar it.value else none

/-- First-seen key order of an association list: each key listed at its
first occurrence, later duplicates dropped. -/
def firstSeenKeys : List (String × String) → List String
  | [] => []
  | (k, _) :: rest => k :: firstSeenKeys (rest.filter fun q => q.1 != k)
termination_by l => l.length
decreasing_by
  simp only [List.length_cons]
  exact Nat.lt_succ_of_le (List.length_filter_le _ _)

theorem insertRev_perm (less : α → α → Bool) (x : α) (l : List α) :
    (insertRev less x l).Perm (x :: l) := by
  induction l with
  | nil => exact List.Perm.refl _
  | cons y ys ih =>
    simp only [insertRev]
    by_cases h : less x y = true
    · simp only [h, if_true]
      exact (ih.cons y).trans (List.Perm.swap x y ys)
    · simp only [h, if_false]
      exact List.Perm.refl _

theorem foldl_insertRev_perm (less : α → α → Bool) (l acc : List α) :
    (l.foldl (fun a x => insertRev less x a) acc).Perm (l ++ acc) := by
  induction l generalizing acc with
  | nil => exact List.Perm.refl _
  | cons x xs ih =>
    simp only [List.foldl_cons, List.cons_append]
    exact ((ih (insertRev less x acc)).trans
      (List.Perm.append_left xs (insertRev_perm less x acc))).trans
      List.perm_middle

theorem sliceStable_perm (less : α → α → Bool) (l : List α) :
    (sliceStable less l).Perm l := by
  unfold sliceStable
  exact ((l.foldl _ []).reverse_perm.trans (foldl_insertRev_perm less l [])).trans
    (by simp)

/-- The comment-freeze order: whenever one of the two pairs carries a
comment, they must sit in original index order. -/
def freezeRel (a b : Pair) : Prop :=
  a.hasComment = true ∨ b.hasComment = true → a.originalIdx < b.originalIdx

theorem lessPair_of_comment {a b : Pair}
    (h : a.hasComment = true ∨ b.hasComment = true) :
    lessPair a b = decide (a.originalIdx < b.originalIdx) := by
  unfold lessPair
  rcases h with h | h <;> simp [h]

theorem insertRev_freeze (x : Pair) :
    ∀ (acc : List Pair), (∀ y ∈ acc, y.originalIdx < x.originalIdx) →
    acc.reverse.Pairwise freezeRel →
    (insertRev lessPair x acc).reverse.Pairwise freezeRel := by
  intro acc
  induction acc with
  | nil =>
    intro _ _
    simp [insertRev]
  | cons y ys ih =>
    intro hlt hpw
    unfold insertRev
    by_cases h : lessPair x y = true
    · rw [if_pos h, List.reverse_cons, List.pairwise_append]
      rw [List.reverse_cons, List.pairwise_append] at hpw
      obtain ⟨hpw1, _, hpw2⟩ := hpw
      refine ⟨ih (fun z hz => hlt z (List.mem_cons_of_mem y hz)) hpw1, by simp, ?_⟩
      intro a ha b hb
      rw [List.mem_singleton] at hb
      subst hb
      have ha' : a = x ∨ a ∈ ys := by
        have := (insertRev_perm lessPair x ys).mem_iff.mp (List.mem_reverse.mp ha)
        simpa using this
      rcases ha' with rfl | ha'
      · intro hc
        rw [lessPair_of_comment hc] at h
        have h1 := of_decide_eq_true h
        have h2 := hlt _ (List.mem_cons_self _ _)
        omega
      · exact hpw2 a (List.mem_reverse.mpr ha') _ (List.mem_singleton.mpr rfl)
    · rw [if_neg h, List.reverse_cons, List.pairwise_append]
      refine ⟨hpw, by simp, ?_⟩
      intro a ha b hb
      rw [List.mem_singleton] at hb
      subst hb
      intro _
      exact hlt a (by simpa using List.mem_reverse.mp ha)

theorem foldl_insertRev_freeze :
    ∀ (l acc : List Pair), l.Pairwise (fun a b => a.originalIdx < b.originalIdx) →
    (∀ y ∈ acc, ∀ z ∈ l, y.originalIdx < z.originalIdx) →
    acc.reverse.Pairwise freezeRel →
    ((l.foldl (fun a x => insertRev lessPair x a) acc).reverse).Pairwise freezeRel := by
  intro l
  induction l with
  | nil =>
    intro acc _ _ hpw
    exact hpw
  | cons x xs ih =>
    intro acc hl hacc hpw
    simp only [List.foldl_cons]
    refine ih (insertRev lessPair x acc) (List.pairwise_cons.mp hl).2 ?_ ?_
    · intro y hy z hz
      have hy' : y = x ∨ y ∈ acc :=
        by simpa using (insertRev_perm lessPair x acc).mem_iff.mp hy
      rcases hy' with rfl | hy'
      · exact (List.pairwise_cons.mp hl).1 z hz
      · exact hacc y hy' z (List.mem_cons_of_mem x hz)
    · exact insertRev_freeze x acc (fun y hy => hacc y hy x (List.mem_cons_self x xs)) hpw

/-- The stable sort never reorders a pair that carries a comment relative
to any other pair: the sorted list is pairwise in original index order
wherever a comment is involved. -/
theorem sliceStable_freeze (l : List Pair)
    (hl : l.Pairwise fun a b => a.originalIdx < b.originalIdx) :
    (sliceStable lessPair l).Pairwise freezeRel := by
  unfold sliceStable
  exact foldl_insertRev_freeze l [] hl (by simp) (by simp)

theorem pairsOf_flattenPairs : ∀ l : List (Node × Node), pairsOf (flattenPairs l) = l
  | [] => rfl
  | (k, v) :: rest => by simp [flattenPairs, pairsOf, pairsOf_flattenPairs rest]

theorem flattenPairs_pairsOf : ∀ c : List Node, c.length % 2 = 0 →
    flattenPairs (pairsOf c) = c
  | [], _ => rfl
  | [_], h => by simp at h
  | k :: v :: rest, h => by
    simp only [pairsOf, flattenPairs, List.cons.injEq, true_and]
    exact flattenPairs_pairsOf rest (by simp only [List.length_cons] at h; omega)

theorem string_mk_data (s : String) : String.mk s.data = s := rfl

theorem data_newline_append (s : String) : ("\n" ++ s).data = '\n' :: s.data := by
  simp [String.data_append]

theorem prefixNewline_of_cons (s : String) (c : Char) (t : List Char)
    (hs : s.data = c :: t) :
    prefixNewline s = if c ≠ '\n' then "\n" ++ s else s := by
  unfold prefixNewline
  rw [hs]

theorem canonHead_of_cons (s : String) (c : Char) (t : List Char)
    (hs : s.data = c :: t) :
    canonHead s = if c = '\n' then String.mk t else s := by
  unfold canonHead
  rw [hs]

theorem eq_empty_of_data_nil (s : String) (hs : s.data = []) : s = "" := by
  have h := string_mk_data s
  rw [hs] at h
  exact h.symm

theorem canonHead_prefixNewline (s : String) :
    canonHead (prefixNewline s) = canonHead s := by
  cases hs : s.data with
  | nil =>
    rw [eq_empty_of_data_nil s hs]
    rfl
  | cons c t =>
    by_cases hc : c = '\n'
    · rw [prefixNewline_of_cons s c t hs, if_neg (by simp [hc])]
    · rw [prefixNewline_of_cons s c t hs, if_pos hc]
      rw [canonHead_of_cons ("\n" ++ s) '\n' s.data (by rw [data_newline_append]),
        if_pos rfl, canonHead_of_cons s c t hs, if_neg hc]

theorem prefixNewline_head (s : String) :
    (prefixNewline s).data.head? = some '\n' := by
  cases hs : s.data with
  | nil =>
    rw [eq_empty_of_data_nil s hs]
    rfl
  | cons c t =>
    by_cases hc : c = '\n'
    · rw [prefixNewline_of_cons s c t hs, if_neg (by simp [hc]), hs, hc]
      rfl
    · rw [prefixNewline_of_cons s c t hs, if_pos hc, data_newline_append]
      rfl

theorem prefixNewline_ne_empty (s : String) : prefixNewline s ≠ "" := by
  intro h
  have := prefixNewline_head s
  rw [h] at this
  simp at this

theorem headComment_setHeadComment (n : Node) (h : String) :
    (n.setHeadComment h).headComment = h := by
  cases n
  rfl

theorem canonKey_setHead_prefix (k : Node) :
    canonKey (k.setHeadComment (prefixNewline k.headComment)) = canonKey k := by
  cases k
  simp [canonKey, Node.setHeadComment, Node.headComment, canonHead_prefixNewline]

theorem collectAllList_append (l₁ l₂ : List Node) :
    collectAllList (l₁ ++ l₂) = collectAllList l₁ ++ collectAllList l₂ := by
  induction l₁ with
  | nil => rfl
  | cons n ns ih => simp [collectAllList, ih]

theorem collectAll_eq (n : Node) : collectAll n =
    (n.kind, n.tag, n.value, n.style, canonHead n.headComment, n.lineComment,
      n.footComment) :: collectAllList n.content := by
  cases n
  rfl

theorem collectAll_setContent (n : Node) (c : List Node) :
    collectAll (n.setContent c) =
    (n.kind, n.tag, n.value, n.style, canonHead n.headComment, n.lineComment,
      n.footComment) :: collectAllList c := by
  cases n
  rfl

theorem collectAll_setHead_prefix (n : Node) :
    collectAll (n.setHeadComment (prefixNewline n.headComment)) = collectAll n := by
  cases n
  simp [collectAll, Node.setHeadComment, Node.headComment, canonHead_prefixNewline]

theorem sliceStable_freeze_id (l : List Pair)
    (h1 : l.Pairwise fun a b => a.originalIdx < b.originalIdx)
    (h2 : ∀ a ∈ l, ∀ b ∈ l, a.originalIdx ≠ b.originalIdx →
      a.hasComment = true ∨ b.hasComment = true) :
    sliceStable lessPair l = l := by
  have hperm := sliceStable_perm lessPair l
  have hfreeze := sliceStable_freeze l h1
  have hne : (sliceStable lessPair l).Pairwise
      (fun a b => a.originalIdx ≠ b.originalIdx) := by
    refine (hperm.pairwise_iff ?_).mpr (h1.imp fun h => Nat.ne_of_lt h)
    intro a b h
    exact h.symm
  have hsorted : (sliceStable lessPair l).Pairwise
      (fun a b => a.originalIdx < b.originalIdx) := by
    refine (hne.and hfreeze).imp_of_mem ?_
    intro a b ha hb hab
    exact hab.2 (h2 a (hperm.subset ha) b (hperm.subset hb) hab.1)
  haveI : IsAntisymm Pair (fun a b => a.originalIdx < b.originalIdx) :=
    ⟨fun a b hab hba => absurd hba (Nat.lt_asymm hab)⟩
  exact List.eq_of_perm_of_sorted hperm hsorted h1

theorem kind_setContent (n : Node) (c : List Node) : (n.setContent c).kind = n.kind := by
  cases n
  rfl

theorem content_setContent (n : Node) (c : List Node) : (n.setContent c).content = c := by
  cases n
  rfl

theorem setContent_setContent (n : Node) (c c' : List Node) :
    (n.setContent c).setContent c' = n.setContent c' := by
  cases n
  rfl

theorem setContent_content (n : Node) : n.setContent n.content = n := by
  cases n
  rfl

theorem kind_setHeadComment (n : Node) (h : String) :
    (n.setHeadComment h).kind = n.kind := by
  cases n
  rfl

theorem content_setHeadComment (n : Node) (h : String) :
    (n.setHeadComment h).content = n.content := by
  cases n
  rfl

namespace dockercompose

theorem buildPairsAux_idx_le (b : Bool) :
    ∀ (c : List Node) (i : Nat), ∀ p ∈ buildPairsAux b i c, i ≤ p.originalIdx
  | [], _, p, hp => by simp [buildPairsAux] at hp
  | [_], _, p, hp => by simp [buildPairsAux] at hp
  | k :: v :: rest, i, p, hp => by
    simp only [buildPairsAux, List.mem_cons] at hp
    rcases hp with rfl | hp
    · exact Nat.le_refl _
    · exact Nat.le_of_lt (Nat.lt_of_lt_of_le (by omega)
        (buildPairsAux_idx_le b rest (i + 2) p hp))

theorem buildPairsAux_pairwise (b : Bool) :
    ∀ (c : List Node) (i : Nat),
    (buildPairsAux b i c).Pairwise fun a a' => a.originalIdx < a'.originalIdx
  | [], _ => by simp [buildPairsAux]
  | [_], _ => by simp [buildPairsAux]
  | k :: v :: rest, i => by
    simp only [buildPairsAux]
    refine List.pairwise_cons.mpr ⟨?_, buildPairsAux_pairwise b rest (i + 2)⟩
    intro p hp
    have h2 := buildPairsAux_idx_le b rest (i + 2) p hp
    show i < p.originalIdx
    omega

theorem buildPairs_pairwise (b : Bool) (c : List Node) :
    (buildPairs b c).Pairwise fun a a' => a.originalIdx < a'.originalIdx :=
  buildPairsAux_pairwise b c 0

theorem buildPairsAux_false_toKV :
    ∀ (c : List Node) (i : Nat),
    (buildPairsAux false i c).map (fun p => (p.key, p.value)) = pairsOf c
  | [], _ => rfl
  | [_], _ => rfl
  | k :: v :: rest, i => by
    simp only [buildPairsAux, List.map_cons, pairsOf, List.cons.injEq]
    exact ⟨by simp, buildPairsAux_false_toKV rest (i + 2)⟩

theorem canonKeysAux_spaceKeysAux :
    ∀ (c : List Node) (i : Nat), canonKeysAux i (spaceKeysAux i c) = canonKeysAux i c
  | [], _ => rfl
  | n :: rest, i => by
    simp only [spaceKeysAux, canonKeysAux, canonKeysAux_spaceKeysAux rest (i + 1)]
    by_cases h : i % 2 = 0 ∧ i ≠ 0
    · rw [if_pos h, if_pos h.1, if_pos h.1, canonKey_setHead_prefix]
    · rw [if_neg h]

theorem canonValue_addServiceSpacing (v : Node) :
    (addServiceSpacing v).setContent (canonKeysAux 0 (addServiceSpacing v).content) =
      v.setContent (canonKeysAux 0 v.content) := by
  unfold addServiceSpacing
  by_cases h : v.kind ≠ Kind.mapping ∨ v.content.isEmpty
  · rw [if_pos h]
  · rw [if_neg h, content_setContent, setContent_setContent,
      canonKeysAux_spaceKeysAux]

theorem buildPairsAux_canon (b : Bool) :
    ∀ (c : List Node) (i : Nat),
    (buildPairsAux b i c).map (fun p => canonPairKV (p.key, p.value)) =
      (pairsOf c).map canonPairKV
  | [], _ => rfl
  | [_], _ => rfl
  | k :: v :: rest, i => by
    simp only [buildPairsAux, List.map_cons, pairsOf, List.cons.injEq]
    refine ⟨?_, buildPairsAux_canon b rest (i + 2)⟩
    by_cases h : b = true ∧ k.value = "services" ∧ v.kind = Kind.mapping
    · rw [if_pos h]
      simp only [canonPairKV]
      rw [canonValue_addServiceSpacing]
    · rw [if_neg h]

end dockercompose

namespace traefik

theorem buildPairsAuxT_idx_le (b : Bool) :
    ∀ (c : List Node) (i : Nat), ∀ p ∈ buildPairsAux b i c, i ≤ p.originalIdx
  | [], _, p, hp => by simp [buildPairsAux] at hp
  | [_], _, p, hp => by simp [buildPairsAux] at hp
  | k :: v :: rest, i, p, hp => by
    simp only [buildPairsAux, List.mem_cons] at hp
    rcases hp with rfl | hp
    · exact Nat.le_refl _
    · exact Nat.le_of_lt (Nat.lt_of_lt_of_le (by omega)
        (buildPairsAuxT_idx_le b rest (i + 2) p hp))

theorem buildPairsAuxT_pairwise (b : Bool) :
    ∀ (c : List Node) (i : Nat),
    (buildPairsAux b i c).Pairwise fun a a' => a.originalIdx < a'.originalIdx
  | [], _ => by simp [buildPairsAux]
  | [_], _ => by simp [buildPairsAux]
  | k :: v :: rest, i => by
    simp only [buildPairsAux]
    refine List.pairwise_cons.mpr ⟨?_, buildPairsAuxT_pairwise b rest (i + 2)⟩
    intro p hp
    have h2 := buildPairsAuxT_idx_le b rest (i + 2) p hp
    show i < p.originalIdx
    omega

theorem buildPairsT_pairwise (b : Bool) (c : List Node) :
    (buildPairs b c).Pairwise fun a a' => a.originalIdx < a'.originalIdx :=
  buildPairsAuxT_pairwise b c 0

theorem buildPairsAux_toKV (b : Bool) :
    ∀ (c : List Node) (i : Nat),
    (buildPairsAux b i c).map (fun p => (p.key, p.value)) = pairsOf c
  | [], _ => rfl
  | [_], _ => rfl
  | k :: v :: rest, i => by
    simp only [buildPairsAux, List.map_cons, pairsOf, List.cons.injEq]
    exact ⟨by simp, buildPairsAux_toKV b rest (i + 2)⟩

theorem buildPairsAux_mem (b : Bool) :
    ∀ (c : List Node) (i : Nat), ∀ p ∈ buildPairsAux b i c,
    p.key ∈ c ∧ p.value ∈ c
  | [], _, p, hp => by simp [buildPairsAux] at hp
  | [_], _, p, hp => by simp [buildPairsAux] at hp
  | k :: v :: rest, i, p, hp => by
    simp only [buildPairsAux, List.mem_cons] at hp
    rcases hp with rfl | hp
    · exact ⟨by simp, by simp⟩
    · have := buildPairsAux_mem b rest (i + 2) p hp
      exact ⟨by simp [this.1], by simp [this.2]⟩

end traefik

/-- A plain scalar node with a value and no comments. -/
def sc (v : String) : Node := .mk Kind.scalar 0 "!!str" v "" "" "" []

/-- A plain mapping node over the given Content. -/
def mp (c : List Node) : Node := .mk Kind.mapping 0 "!!map" "" "" "" "" c

def defaultPair : Pair :=
  { key := nullNode, value := nullNode, order := 0, originalIdx := 0,
    hasComment := false }

/-- The document `environment: [B=2, A=1]` for the docker-compose profile. -/
def envSeqDoc : Node := .mk Kind.document 0 "" "" "" "" ""
  [mp [sc "environment", .mk Kind.sequence 0 "!!seq" "" "" "" "" [sc "B=2", sc "A=1"]]]

def formatOnce : Node := dockercompose.formatNodeWithContext 10 envSeqDoc true ""

def formatTwice : Node := dockercompose.formatNodeWithContext 10 formatOnce true ""

/-- The value under the first key of the root mapping of a document. -/
def envChild (n : Node) : Node := ((n.content.headD n).content.getD 1 n)

/-- C1: Format is not idempotent.  On the docker-compose document
`environment: [B=2, A=1]` the first pass converts the sequence to a
mapping in first-seen order B, A — normalizeValues runs after
sortMappingNode at the same visit, so the freshly built mapping is never
sorted — while the second pass sorts that mapping alphabetically to A, B.
The two formatted trees differ, so Format(Format(D)) ≠ Format(D) and
Check(Format(D)) is false, against the stated contract. -/
theorem C1_environment_sequence_breaks_idempotence :
    keyNames (envChild formatOnce) = ["B", "A"] ∧
    keyNames (envChild formatTwice) = ["A", "B"] ∧
    formatTwice ≠ formatOnce := by
  refine ⟨by decide, by decide, ?_⟩
  intro h
  have h2 := congrArg (fun t => keyNames (envChild t)) h
  simp only [] at h2
  rw [show keyNames (envChild formatTwice) = ["A", "B"] from by decide,
    show keyNames (envChild formatOnce) = ["B", "A"] from by decide] at h2
  exact absurd h2 (by decide)

/-- The http protocol section of a traefik document, keys scrambled and
uncommented. -/
def httpSectionNode : Node :=
  mp [sc "middlewares", sc "m", sc "routers", sc "r",
      sc "serversTransports", sc "t", sc "services", sc "s"]

/-- C2 counterexample: the rank lookup does not select a table by context.
As a direct child of the http section — where the section's own table
assigns "middlewares" rank 3, before serversTransports at 4 — the key is
ranked by the router table (6, the first table in the fixed fall-through
chain that knows the name), exactly as it is inside a router entry, so the
sorted http section puts middlewares after serversTransports. -/
theorem C2_counterexample_middlewares_rank_not_contextual :
    traefik.getKeyOrder "middlewares" false = 6 ∧
    traefik.routerOrder.lookup "middlewares" = some 6 ∧
    traefik.httpOrder.lookup "middlewares" = some 3 ∧
    keyNames (traefik.sortMappingNode httpSectionNode false) =
      ["routers", "services", "serversTransports", "middlewares"] := by
  refine ⟨by decide, by decide, by decide, by decide⟩

namespace traefik

theorem buildPairsAux_order (b : Bool) :
    ∀ (c : List Node) (i : Nat), ∀ p ∈ buildPairsAux b i c,
    p.order = getKeyOrder p.key.value b
  | [], _, p, hp => by simp [buildPairsAux] at hp
  | [_], _, p, hp => by simp [buildPairsAux] at hp
  | k :: v :: rest, i, p, hp => by
    simp only [buildPairsAux, List.mem_cons] at hp
    rcases hp with rfl | hp
    · rfl
    · exact buildPairsAux_order b rest (i + 2) p hp

end traefik

/-- C2 amended: the rank used while sorting depends only on the key name
and the single is-top-level flag — every pair built for a non-top-level
mapping carries the rank getKeyOrder(key, false), whatever the enclosing
context is, and "middlewares" in particular receives the router-table rank
6 at top level and in every nested context alike. -/
theorem C2_amended_rank_depends_only_on_key_and_level :
    (∀ b : Bool, traefik.getKeyOrder "middlewares" b = 6) ∧
    (∀ (n : Node) (p : Pair), p ∈ traefik.buildPairs false n.content →
      p.order = traefik.getKeyOrder p.key.value false) := by
  constructor
  · intro b
    cases b <;> decide
  · intro n p hp
    exact traefik.buildPairsAux_order false n.content 0 p hp

theorem C2_amended_witness :
    ((traefik.buildPairs false httpSectionNode.content).headD defaultPair).order =
      traefik.getKeyOrder "middlewares" false := by
  have h := C2_amended_rank_depends_only_on_key_and_level.2 httpSectionNode
    ((traefik.buildPairs false httpSectionNode.content).headD defaultPair)
    (List.mem_cons_self _ _)
  exact h

/-- A docker-compose top level with the defined key services and the
undefined key apple, both uncommented. -/
def composeTopNode : Node := mp [sc "services", sc "x", sc "apple", sc "y"]

/-- C4 counterexample: the docker-compose top-level table itself defines
"services" at the sentinel value 1000, so the sentinel is not strictly
greater than every defined rank of that table, and the absent key "apple"
(rank 1000) sorts alphabetically before the present key "services" instead
of after it. -/
theorem C4_counterexample_services_ties_with_sentinel :
    dockercompose.topLevelOrder.lookup "services" = some 1000 ∧
    dockercompose.getKeyOrder "apple" true = 1000 ∧
    dockercompose.getKeyOrder "services" true = 1000 ∧
    keyNames (dockercompose.sortMappingNode composeTopNode true) =
      ["apple", "services"] := by
  refine ⟨by decide, by decide, by decide, by decide⟩

/-- C4 amended: in every ordering table of both modules every defined rank
is at most the sentinel 1000, and it is strictly below 1000 everywhere
except for the single entry "services": 1000 of the docker-compose
top-level table — so unknown keys sort after all present keys except
"services", with which they tie and interleave alphabetically. -/
theorem C4_amended_sentinel_bounds :
    (∀ t ∈ [dockercompose.topLevelOrder, dockercompose.serviceLevelOrder,
        dockercompose.buildOrder, dockercompose.deployOrder,
        dockercompose.networkOrder, dockercompose.volumeOrder,
        dockercompose.secretsOrder, dockercompose.configsOrder,
        traefik.topLevelOrder, traefik.httpOrder, traefik.tcpOrder,
        traefik.udpOrder, traefik.routerOrder, traefik.serviceOrder,
        traefik.loadBalancerOrder, traefik.middlewareOrder,
        traefik.entryPointOrder, traefik.tlsOrder, traefik.providerOrder],
      ∀ p ∈ t, p.2 ≤ 1000) ∧
    (∀ t ∈ [dockercompose.serviceLevelOrder,
        dockercompose.buildOrder, dockercompose.deployOrder,
        dockercompose.networkOrder, dockercompose.volumeOrder,
        dockercompose.secretsOrder, dockercompose.configsOrder,
        traefik.topLevelOrder, traefik.httpOrder, traefik.tcpOrder,
        traefik.udpOrder, traefik.routerOrder, traefik.serviceOrder,
        traefik.loadBalancerOrder, traefik.middlewareOrder,
        traefik.entryPointOrder, traefik.tlsOrder, traefik.providerOrder],
      ∀ p ∈ t, p.2 < 1000) ∧
    (∀ p ∈ dockercompose.topLevelOrder, p.1 ≠ "services" → p.2 < 1000) := by
  refine ⟨by decide, by decide, by decide⟩

theorem C4_amended_witness :
    ((("version" : String), (1 : Nat)).2 ≤ 1000) ∧
    ((("image" : String), (1 : Nat)).2 < 1000) ∧
    ((("version" : String), (1 : Nat)).2 < 1000) :=
  ⟨C4_amended_sentinel_bounds.1 dockercompose.topLevelOrder (by decide) _ (by decide),
   C4_amended_sentinel_bounds.2.1 dockercompose.serviceLevelOrder (by decide) _ (by decide),
   C4_amended_sentinel_bounds.2.2 ("version", 1) (by decide) (by decide)⟩

/-- A top-level mapping whose services block has two uncommented entries. -/
def svcTopNode : Node := mp [sc "services", mp [sc "a", sc "x", sc "b", sc "y"]]

/-- Key name and inner key head comments of each pair: a projection under
which equal pair multisets are equal. -/
def svcProj (p : Node × Node) : String × List String :=
  (p.1.value, (pairsOf p.2.content).map fun q => q.1.headComment)

/-- C5 counterexample: sorting the top level of `services: {a: x, b: y}`
is not a pure permutation of its (key node, value node) pairs — the sorter
calls addServiceSpacing while collecting pairs, which rewrites the head
comment of the second service key inside the services pair's value
subtree, so the multiset of pairs after sorting differs from the multiset
before. -/
theorem C5_counterexample_top_level_sort_mutates_services_value :
    (pairsOf svcTopNode.content).map svcProj = [("services", ["", ""])] ∧
    (pairsOf (dockercompose.sortMappingNode svcTopNode true).content).map svcProj =
      [("services", ["", "\n"])] ∧
    ¬ (pairsOf (dockercompose.sortMappingNode svcTopNode true).content).Perm
        (pairsOf svcTopNode.content) := by
  refine ⟨by decide, by decide, ?_⟩
  intro h
  have h2 := h.map svcProj
  have h3 := List.perm_singleton.mp h2
  rw [show (pairsOf (dockercompose.sortMappingNode svcTopNode true).content).map
      svcProj = [("services", ["", "\n"])] from by decide] at h3
  exact absurd h3 (by decide)

theorem injectTopHeads_canon (l : List Pair) :
    ((dockercompose.injectTopHeads l).map fun p => canonPairKV (p.key, p.value)) =
      l.map fun p => canonPairKV (p.key, p.value) := by
  cases l with
  | nil => rfl
  | cons p rest =>
    simp only [dockercompose.injectTopHeads, List.map_cons, List.map_map,
      List.cons.injEq, true_and]
    refine List.map_congr_left ?_
    intro q _
    simp only [Function.comp_apply, canonPairKV, canonKey_setHead_prefix]

/-- C5 amended: sorting with isTopLevel = false is a pure permutation of
the mapping's (key node, value node) pairs — nothing created, dropped,
duplicated or mutated, every key still bound to its value; at top level
the same permutation holds up to the injected spacing, i.e. after erasing
one leading newline from each key's head comment and from the head
comments at the even Content positions of each value (the services
block's keys). -/
theorem C5_amended_sorter_permutes_pairs :
    (∀ n : Node, (pairsOf (dockercompose.sortMappingNode n false).content).Perm
      (pairsOf n.content)) ∧
    (∀ (n : Node) (b : Bool),
      ((pairsOf (dockercompose.sortMappingNode n b).content).map canonPairKV).Perm
        ((pairsOf n.content).map canonPairKV)) := by
  have hfalse : ∀ n : Node,
      (pairsOf (dockercompose.sortMappingNode n false).content).Perm
        (pairsOf n.content) := by
    intro n
    unfold dockercompose.sortMappingNode
    by_cases hg : n.kind ≠ Kind.mapping ∨ n.content.isEmpty
    · rw [if_pos hg]
    · rw [if_neg hg]
      simp only [Bool.false_eq_true, if_false, content_setContent,
        pairsOf_flattenPairs]
      calc ((sliceStable lessPair (dockercompose.buildPairs false n.content)).map
              fun p => (p.key, p.value)).Perm
            ((dockercompose.buildPairs false n.content).map fun p => (p.key, p.value)) :=
          (sliceStable_perm lessPair _).map _
        _ = pairsOf n.content := dockercompose.buildPairsAux_false_toKV n.content 0
  refine ⟨hfalse, ?_⟩
  intro n b
  cases b with
  | false => exact (hfalse n).map canonPairKV
  | true =>
    unfold dockercompose.sortMappingNode
    by_cases hg : n.kind ≠ Kind.mapping ∨ n.content.isEmpty
    · rw [if_pos hg]
    · rw [if_neg hg]
      simp only [if_true, content_setContent, pairsOf_flattenPairs, List.map_map]
      have h1 : ((dockercompose.injectTopHeads
          (sliceStable lessPair (dockercompose.buildPairs true n.content))).map
            (canonPairKV ∘ fun p => (p.key, p.value))) =
          (sliceStable lessPair (dockercompose.buildPairs true n.content)).map
            fun p => canonPairKV (p.key, p.value) := by
        rw [show (canonPairKV ∘ fun p : Pair => (p.key, p.value)) =
          fun p : Pair => canonPairKV (p.key, p.value) from rfl]
        exact injectTopHeads_canon _
      rw [h1]
      calc ((sliceStable lessPair (dockercompose.buildPairs true n.content)).map
              fun p => canonPairKV (p.key, p.value)).Perm
            ((dockercompose.buildPairs true n.content).map
              fun p => canonPairKV (p.key, p.value)) :=
          (sliceStable_perm lessPair _).map _
        _ = (pairsOf n.content).map canonPairKV :=
          dockercompose.buildPairsAux_canon true n.content 0

/-- C7: port normalization forces tag !!str and explicit double quoting on
every scalar element of a ports sequence regardless of content, leaves
non-scalar elements unchanged, and passes non-sequence subtrees (and
subtrees under any unrecognized key) through untouched. -/
theorem C7_ports_normalization :
    (∀ n : Node, n.kind ≠ Kind.sequence → dockercompose.normalizePorts n = n) ∧
    (∀ n : Node, n.kind = Kind.sequence →
      (dockercompose.normalizePorts n).kind = n.kind ∧
      List.Forall₂ (fun item item' =>
        (item.kind = Kind.scalar →
          item' = (item.setTag "!!str").setStyle DoubleQuotedStyle) ∧
        (item.kind ≠ Kind.scalar → item' = item))
        n.content (dockercompose.normalizePorts n).content) ∧
    (∀ n : Node, dockercompose.normalizeValues n "ports" =
      dockercompose.normalizePorts n) ∧
    (∀ (n : Node) (pk : String), pk ≠ "environment" → pk ≠ "ports" →
      dockercompose.normalizeValues n pk = n) := by
  refine ⟨?_, ?_, ?_, ?_⟩
  · intro n h
    unfold dockercompose.normalizePorts
    rw [if_pos h]
  · intro n h
    unfold dockercompose.normalizePorts
    rw [if_neg (by simp [h])]
    refine ⟨kind_setContent _ _, ?_⟩
    rw [content_setContent]
    induction n.content with
    | nil => exact List.Forall₂.nil
    | cons item rest ih =>
      simp only [List.map_cons]
      refine List.Forall₂.cons ?_ ih
      by_cases hi : item.kind = Kind.scalar
      · rw [if_pos hi]
        exact ⟨fun _ => rfl, fun hc => absurd hi hc⟩
      · rw [if_neg hi]
        exact ⟨fun hc => absurd hc hi, fun _ => rfl⟩
  · intro n
    rfl
  · intro n pk h1 h2
    unfold dockercompose.normalizeValues
    rw [if_neg h1, if_neg h2]

theorem C7_witness :
    dockercompose.normalizeValues (sc "80:80") "ports" =
      dockercompose.normalizePorts (sc "80:80") ∧
    dockercompose.normalizePorts (sc "80:80") = sc "80:80" ∧
    dockercompose.normalizeValues (sc "80:80") "image" = sc "80:80" :=
  ⟨C7_ports_normalization.2.2.1 (sc "80:80"),
   C7_ports_normalization.1 (sc "80:80") (by decide),
   C7_ports_normalization.2.2.2 (sc "80:80") "image" (by decide) (by decide)⟩

/-- A service-level mapping whose first key carries a head comment and is
out of rank order relative to its uncommented neighbor. -/
def commentFreezeNode : Node :=
  mp [.mk Kind.scalar 0 "!!str" "zzz" "# pinned" "" "" [], sc "1",
      sc "image", sc "2"]

/-- A service-level mapping of 21 pairs, one more than Go's insertion
block: twenty unknown keys k00..k19 already in alphabetical order, the
key of pair 15 carrying a head comment, then the low-rank key "image"
as the 21st pair. -/
def symFreezeContent : List Node :=
  [sc "k00", sc "0", sc "k01", sc "0", sc "k02", sc "0", sc "k03", sc "0",
   sc "k04", sc "0", sc "k05", sc "0", sc "k06", sc "0", sc "k07", sc "0",
   sc "k08", sc "0", sc "k09", sc "0", sc "k10", sc "0", sc "k11", sc "0",
   sc "k12", sc "0", sc "k13", sc "0", sc "k14", sc "0",
   Node.mk Kind.scalar 0 "!!str" "k15" "# pinned" "" "" [], sc "0",
   sc "k16", sc "0", sc "k17", sc "0", sc "k18", sc "0", sc "k19", sc "0",
   sc "image", sc "0"]

def symFreezeNode : Node := mp symFreezeContent

instance : DecidableRel freezeRel := fun a b =>
  decidable_of_iff (a.hasComment = true ∨ b.hasComment = true → a.originalIdx < b.originalIdx)
    Iff.rfl

theorem getIdx_append (p q : List α) : ∀ k, getIdx (p ++ q) (p.length + k) = getIdx q k := by
  induction p with
  | nil => intro k; simp [getIdx]
  | cons a p ih =>
    intro k
    rw [List.cons_append, List.length_cons, Nat.add_right_comm]
    show getIdx (p ++ q) (p.length + k) = getIdx q k
    exact ih k

theorem getIdx_append_zero (p q : List α) : getIdx (p ++ q) p.length = getIdx q 0 := by
  have h := getIdx_append p q 0
  rwa [Nat.add_zero] at h

theorem setIdx_append (p q : List α) (v : α) :
    ∀ k, setIdx (p ++ q) (p.length + k) v = p ++ setIdx q k v := by
  induction p with
  | nil => intro k; simp [setIdx]
  | cons a p ih =>
    intro k
    rw [List.cons_append, List.length_cons, Nat.add_right_comm, List.cons_append]
    show a :: setIdx (p ++ q) (p.length + k) v = a :: (p ++ setIdx q k v)
    rw [ih k]

theorem setIdx_append_zero (p q : List α) (v : α) :
    setIdx (p ++ q) p.length v = p ++ setIdx q 0 v := by
  have h := setIdx_append p q v 0
  rwa [Nat.add_zero] at h

theorem swapIdx_adjacent (p : List α) (y x : α) (r : List α) :
    swapIdx (p ++ y :: x :: r) (p.length + 1) p.length = p ++ x :: y :: r := by
  have h1 : getIdx (p ++ y :: x :: r) (p.length + 1) = some x := by
    rw [getIdx_append]; rfl
  have h2 : getIdx (p ++ y :: x :: r) p.length = some y := by
    rw [getIdx_append_zero]; rfl
  simp only [swapIdx, h1, h2]
  rw [setIdx_append p (y :: x :: r) y 1, setIdx_append_zero]
  rfl

theorem lessIdx_adjacent (less : α → α → Bool) (p : List α) (y x : α) (r : List α) :
    lessIdx less (p ++ y :: x :: r) (p.length + 1) p.length = less x y := by
  have h1 : getIdx (p ++ y :: x :: r) (p.length + 1) = some x := by
    rw [getIdx_append]; rfl
  have h2 : getIdx (p ++ y :: x :: r) p.length = some y := by
    rw [getIdx_append_zero]; rfl
  simp only [lessIdx, h1, h2]

theorem insertRev_length (less : α → α → Bool) (x : α) :
    ∀ acc : List α, (insertRev less x acc).length = acc.length + 1
  | [] => rfl
  | y :: ys => by
    rw [insertRev]
    by_cases h : less x y = true
    · rw [if_pos h, List.length_cons, insertRev_length less x ys, List.length_cons]
    · rw [if_neg h, List.length_cons, List.length_cons]

/-- The inner loop at index `acc.length`, on a list whose processed
prefix is `acc.reverse`, performs one functional insertion step. -/
theorem isortInner_insertRev (less : α → α → Bool) (x : α) :
    ∀ (acc rest : List α),
    isortInner less 0 (acc.reverse ++ x :: rest) acc.length =
      (insertRev less x acc).reverse ++ rest := by
  intro acc
  induction acc with
  | nil => intro rest; simp [isortInner, insertRev]
  | cons y ys ih =>
    intro rest
    have hl := lessIdx_adjacent less ys.reverse y x rest
    have hs := swapIdx_adjacent ys.reverse y x rest
    rw [List.length_reverse] at hl hs
    rw [List.reverse_cons, List.append_assoc, List.singleton_append]
    show isortInner less 0 (ys.reverse ++ y :: x :: rest) (ys.length + 1) =
      (insertRev less x (y :: ys)).reverse ++ rest
    simp only [isortInner]
    rw [if_pos (Nat.zero_le ys.length), hl, hs]
    by_cases hxy : less x y = true
    · rw [if_pos hxy, ih (y :: rest),
        show insertRev less x (y :: ys) = y :: insertRev less x ys from by
          rw [insertRev, if_pos hxy]]
      simp
    · rw [if_neg hxy,
        show insertRev less x (y :: ys) = x :: y :: ys from by
          rw [insertRev, if_neg hxy]]
      simp

/-- The outer insertion-sort loop is the fold of insertion steps. -/
theorem isortOuter_foldl (less : α → α → Bool) :
    ∀ (rest acc : List α) (fuel : Nat), rest.length ≤ fuel →
    isortOuter less 0 (acc.length + rest.length) fuel acc.length (acc.reverse ++ rest) =
      (rest.foldl (fun a x => insertRev less x a) acc).reverse := by
  intro rest
  induction rest with
  | nil =>
    intro acc fuel _
    cases fuel with
    | zero => simp [isortOuter]
    | succ f =>
      simp only [isortOuter]
      rw [if_neg (by simp)]
      simp
  | cons x rest' ih =>
    intro acc fuel hf
    cases fuel with
    | zero => simp at hf
    | succ f =>
      simp only [isortOuter]
      rw [if_pos (by rw [List.length_cons]; omega)]
      rw [isortInner_insertRev less x acc rest']
      have hlen : (insertRev less x acc).length = acc.length + 1 := insertRev_length less x acc
      have hn : acc.length + (x :: rest').length = (insertRev less x acc).length + rest'.length := by
        rw [hlen, List.length_cons]; omega
      rw [hn, ← hlen]
      rw [ih (insertRev less x acc) f (by rw [List.length_cons] at hf; omega)]
      rfl

/-- The in-place insertionSort(data, 0, n) of the sort package is the
functional insertion sort. -/
theorem insertionSortGo_eq_sliceStable (less : α → α → Bool) (l : List α) :
    insertionSortGo less 0 l.length l = sliceStable less l := by
  cases l with
  | nil => rfl
  | cons x r =>
    have h := isortOuter_foldl less r [x] (r.length + 1) (Nat.le_succ _)
    simp only [List.length_cons, List.length_nil, List.reverse_cons, List.reverse_nil,
      List.nil_append, List.singleton_append, Nat.zero_add] at h
    rw [Nat.add_comm 1 r.length] at h
    show isortOuter less 0 (r.length + 1) (r.length + 1) 1 (x :: r) = sliceStable less (x :: r)
    rw [h]
    rfl

theorem isortBlocks_le20 (less : α → α → Bool) (l : List α) (h : l.length ≤ 20) :
    isortBlocks less l.length (l.length + 1) 0 20 l = insertionSortGo less 0 l.length l := by
  simp only [isortBlocks]
  by_cases h20 : 20 ≤ l.length
  · rw [if_pos h20]
    have he : l.length = 20 := Nat.le_antisymm h h20
    rw [he]
    generalize insertionSortGo less 0 20 l = m
    show isortBlocks less 20 (19 + 1) 20 (20 + 20) m = m
    simp only [isortBlocks]
    rw [if_neg (by omega)]
    rfl
  · rw [if_neg h20]

theorem mergeBlocksOuter_ge (less : α → α → Bool) (n : Nat) (l : List α) (h : ¬ 20 < n) :
    mergeBlocksOuter less n (n + 1) 20 l = l := by
  simp only [mergeBlocksOuter]
  rw [if_neg h]

/-- On at most 20 elements the full stable sort never merges: it is the
single insertion sort. -/
theorem goSliceStable_le20 (less : α → α → Bool) (l : List α) (h : l.length ≤ 20) :
    goSliceStable less l = sliceStable less l := by
  show mergeBlocksOuter less l.length (l.length + 1) 20
      (isortBlocks less l.length (l.length + 1) 0 20 l) = sliceStable less l
  rw [isortBlocks_le20 less l h, mergeBlocksOuter_ge less l.length _ (by omega),
    insertionSortGo_eq_sliceStable]

/-- C3, refuted at 21 pairs: Go's stable sort insertion-sorts only the
first 20 pairs and then symMerge-inserts the 21st by binary search; with
the comparator's comment fallback the binary search is unreliable, and
the uncommented low-rank pair "image" (original index 40) lands at
position 0, ahead of the commented pair "k15" (original index 30) — the
commented pair does not stay before the later uncommented pair, though
its rank (1000) exceeds the overtaker's rank, so the comment-freeze
clause fails on the real sort. -/
theorem C3_counterexample_symmerge_unfreezes_comment :
    ((goSliceStable lessPair (dockercompose.buildPairs false symFreezeNode.content)).map
        fun p => p.originalIdx) = 40 :: (List.range 20).map (fun i => 2 * i) ∧
    ((goSliceStable lessPair (dockercompose.buildPairs false symFreezeNode.content)).map
        fun p => p.hasComment) =
      List.replicate 16 false ++ true :: List.replicate 4 false ∧
    dockercompose.getKeyOrder "image" false < dockercompose.getKeyOrder "k15" false ∧
    ¬ (goSliceStable lessPair
        (dockercompose.buildPairs false symFreezeNode.content)).Pairwise freezeRel :=
  ⟨by decide, by decide, by decide, by decide⟩

/-- C3, amended: within one insertion block — any mapping of at most 20
pairs — the comment-freeze invariant holds for Go's stable sort, in both
modules: the pairs are built with strictly increasing original indices
and the sorted output is pairwise ordered by original index whenever
either pair of a comparison carries a comment, as the concrete conjunct
shows for a commented key "zzz" (rank 1000) kept ahead of "image"
(rank 1). -/
theorem C3_amended_comment_freeze_within_block :
    (∀ (b : Bool) (c : List Node),
      (dockercompose.buildPairs b c).length ≤ 20 →
      (goSliceStable lessPair (dockercompose.buildPairs b c)).Pairwise freezeRel) ∧
    (∀ (b : Bool) (c : List Node),
      (traefik.buildPairs b c).length ≤ 20 →
      (goSliceStable lessPair (traefik.buildPairs b c)).Pairwise freezeRel) ∧
    keyNames (dockercompose.sortMappingNode commentFreezeNode false) =
      ["zzz", "image"] := by
  refine ⟨?_, ?_, by decide⟩
  · intro b c h
    rw [goSliceStable_le20 lessPair _ h]
    exact sliceStable_freeze _ (dockercompose.buildPairs_pairwise b c)
  · intro b c h
    rw [goSliceStable_le20 lessPair _ h]
    exact sliceStable_freeze _ (traefik.buildPairsT_pairwise b c)

/-- The amended freeze theorem applied to the two-pair commented mapping. -/
theorem C3_amended_witness :
    (dockercompose.buildPairs false commentFreezeNode.content).length ≤ 20 ∧
    (goSliceStable lessPair
        (dockercompose.buildPairs false commentFreezeNode.content)).Pairwise freezeRel :=
  ⟨by decide,
   C3_amended_comment_freeze_within_block.1 false commentFreezeNode.content (by decide)⟩

namespace dockercompose

theorem spaceKeysAux_length : ∀ (c : List Node) (i : Nat),
    (spaceKeysAux i c).length = c.length
  | [], _ => rfl
  | n :: rest, i => by simp [spaceKeysAux, spaceKeysAux_length rest (i + 1)]

theorem spaceKeysAux_cons2 (k v : Node) (rest : List Node) (i : Nat)
    (he : i % 2 = 0) :
    spaceKeysAux i (k :: v :: rest) =
      (if i % 2 = 0 ∧ i ≠ 0 then
        k.setHeadComment (prefixNewline k.headComment) else k) ::
        v :: spaceKeysAux (i + 2) rest := by
  simp only [spaceKeysAux]
  rw [if_neg (show ¬((i + 1) % 2 = 0 ∧ i + 1 ≠ 0) by omega)]

theorem pairsOf_spaceKeysAux_ne :
    ∀ (c : List Node) (i : Nat), i % 2 = 0 → i ≠ 0 →
    pairsOf (spaceKeysAux i c) = (pairsOf c).map
      fun p => (p.1.setHeadComment (prefixNewline p.1.headComment), p.2)
  | [], _, _, _ => rfl
  | [x], i, he, hn => by
    simp only [spaceKeysAux, pairsOf]
    rfl
  | k :: v :: rest, i, he, hn => by
    rw [spaceKeysAux_cons2 k v rest i he, if_pos ⟨he, hn⟩]
    simp only [pairsOf, List.map_cons]
    exact congrArg _ (pairsOf_spaceKeysAux_ne rest (i + 2) (by omega) (by omega))

theorem pairsOf_spaceKeysAux_zero (c : List Node) :
    (pairsOf (spaceKeysAux 0 c)).head? = (pairsOf c).head? ∧
    (pairsOf (spaceKeysAux 0 c)).drop 1 = ((pairsOf c).drop 1).map
      fun p => (p.1.setHeadComment (prefixNewline p.1.headComment), p.2) := by
  match c with
  | [] => exact ⟨rfl, rfl⟩
  | [x] => exact ⟨rfl, rfl⟩
  | k :: v :: rest =>
    rw [spaceKeysAux_cons2 k v rest 0 rfl, if_neg (by omega)]
    constructor
    · rfl
    · simp only [pairsOf, List.drop_succ_cons, List.drop_zero]
      exact pairsOf_spaceKeysAux_ne rest 2 (by omega) (by omega)

theorem kind_addServiceSpacing (m : Node) :
    (addServiceSpacing m).kind = m.kind := by
  unfold addServiceSpacing
  split
  · rfl
  · exact kind_setContent _ _

theorem buildPairsAux_key_mem (b : Bool) :
    ∀ (c : List Node) (i : Nat), ∀ p ∈ buildPairsAux b i c,
    ∃ q ∈ pairsOf c, p.key = q.1
  | [], _, p, hp => by simp [buildPairsAux] at hp
  | [_], _, p, hp => by simp [buildPairsAux] at hp
  | k :: v :: rest, i, p, hp => by
    simp only [buildPairsAux, List.mem_cons] at hp
    rcases hp with rfl | hp
    · exact ⟨(k, v), by simp [pairsOf], rfl⟩
    · obtain ⟨q, hq, hpq⟩ := buildPairsAux_key_mem b rest (i + 2) p hp
      exact ⟨q, by simp [pairsOf, hq], hpq⟩

theorem buildPairs_false_toKV (c : List Node) :
    (buildPairs false c).map (fun p => (p.key, p.value)) = pairsOf c :=
  buildPairsAux_false_toKV c 0

theorem spacing_pairs_comment :
    ∀ (c : List Node) (i : Nat), i % 2 = 0 →
    ∀ p ∈ buildPairsAux false i (spaceKeysAux i c),
    p.originalIdx ≠ 0 → p.hasComment = true
  | [], _, _, p, hp => by simp [spaceKeysAux, buildPairsAux] at hp
  | [x], i, _, p, hp => by
    simp only [spaceKeysAux, buildPairsAux] at hp
    simp at hp
  | k :: v :: rest, i, he, p, hp => by
    rw [spaceKeysAux_cons2 k v rest i he] at hp
    simp only [buildPairsAux, Bool.false_eq_true, false_and, if_false,
      List.mem_cons] at hp
    rcases hp with rfl | hp
    · intro hne
      have hi : i ≠ 0 := hne
      rw [if_pos ⟨he, hi⟩]
      exact decide_eq_true (Or.inl (by
        rw [headComment_setHeadComment]
        exact prefixNewline_ne_empty _))
    · intro hne
      exact spacing_pairs_comment rest (i + 2) (by omega) p hp hne

end dockercompose

/-- C9: service spacing is injected while the top level is sorted, before
the services mapping itself is sorted, and the sorter counts any non-empty
head comment — including a bare injected newline — as comment-bearing.
Hence every pair of the spaced services mapping except the first
satisfies hasComment, and sorting the spaced services mapping is the
identity: all entries (in particular all entries from the second onward)
keep their original relative order. -/
theorem C9_injected_spacing_pins_entries (m : Node)
    (h1 : m.kind = Kind.mapping) (h2 : m.content.length % 2 = 0) :
    (∀ p ∈ dockercompose.buildPairs false
        (dockercompose.addServiceSpacing m).content,
      p.originalIdx ≠ 0 → p.hasComment = true) ∧
    dockercompose.sortMappingNode (dockercompose.addServiceSpacing m) false =
      dockercompose.addServiceSpacing m := by
  have hcomment : ∀ p ∈ dockercompose.buildPairs false
      (dockercompose.addServiceSpacing m).content,
      p.originalIdx ≠ 0 → p.hasComment = true := by
    unfold dockercompose.addServiceSpacing
    by_cases hg : m.kind ≠ Kind.mapping ∨ m.content.isEmpty
    · rw [if_pos hg]
      rcases hg with hg | hg
      · exact absurd h1 hg
      · intro p hp
        rw [List.isEmpty_iff.mp hg] at hp
        simp [dockercompose.buildPairs, dockercompose.buildPairsAux] at hp
    · rw [if_neg hg, content_setContent]
      exact dockercompose.spacing_pairs_comment m.content 0 (by omega)
  refine ⟨hcomment, ?_⟩
  unfold dockercompose.sortMappingNode
  by_cases hs : (dockercompose.addServiceSpacing m).kind ≠ Kind.mapping ∨
      (dockercompose.addServiceSpacing m).content.isEmpty
  · rw [if_pos hs]
  · rw [if_neg hs]
    have hid : sliceStable lessPair (dockercompose.buildPairs false
        (dockercompose.addServiceSpacing m).content) =
        dockercompose.buildPairs false
          (dockercompose.addServiceSpacing m).content := by
      refine sliceStable_freeze_id _ (dockercompose.buildPairs_pairwise _ _) ?_
      intro a ha b hb hab
      by_cases hza : a.originalIdx = 0
      · right
        exact hcomment b hb (by omega)
      · left
        exact hcomment a ha hza
    rw [hid]
    simp only [Bool.false_eq_true, if_false]
    rw [dockercompose.buildPairs_false_toKV, flattenPairs_pairsOf,
      setContent_content]
    unfold dockercompose.addServiceSpacing
    by_cases hg : m.kind ≠ Kind.mapping ∨ m.content.isEmpty
    · rw [if_pos hg]
      exact h2
    · rw [if_neg hg, content_setContent]
      rw [dockercompose.spaceKeysAux_length]
      exact h2

/-- Four uncommented service entries in reverse alphabetical order: with
injected spacing the sorter leaves them untouched. -/
def svcFour : Node := mp [sc "b", sc "1", sc "a", sc "2"]

theorem C9_witness :
    dockercompose.sortMappingNode (dockercompose.addServiceSpacing svcFour) false =
      dockercompose.addServiceSpacing svcFour :=
  (C9_injected_spacing_pins_entries svcFour (by decide) (by decide)).2

/-- C8: spacing injection.  The newline-prefixing rule: the result always
begins with a newline, a bare newline replaces an empty head comment, a
newline is prepended exactly when the head comment does not already start
with one.  addServiceSpacing leaves the first pair untouched and applies
the rule to the key of every later pair; the top-level sort leaves the
first sorted pair's key an original key node and every later sorted
pair's key head comment begins with a newline. -/
theorem C8_spacing_injection :
    (∀ s : String, (prefixNewline s).data.head? = some '\n') ∧
    prefixNewline "" = "\n" ∧
    (∀ s : String, s ≠ "" → s.data.head? ≠ some '\n' → prefixNewline s = "\n" ++ s) ∧
    (∀ s : String, s.data.head? = some '\n' → prefixNewline s = s) ∧
    (∀ m : Node, m.kind = Kind.mapping →
      (pairsOf (dockercompose.addServiceSpacing m).content).head? =
        (pairsOf m.content).head? ∧
      (pairsOf (dockercompose.addServiceSpacing m).content).drop 1 =
        ((pairsOf m.content).drop 1).map
          fun p => (p.1.setHeadComment (prefixNewline p.1.headComment), p.2)) ∧
    (∀ n : Node, n.kind = Kind.mapping →
      (∀ p ∈ (pairsOf (dockercompose.sortMappingNode n true).content).drop 1,
        p.1.headComment.data.head? = some '\n') ∧
      (∀ p ∈ (pairsOf (dockercompose.sortMappingNode n true).content).take 1,
        ∃ q ∈ pairsOf n.content, p.1 = q.1)) := by
  refine ⟨prefixNewline_head, rfl, ?_, ?_, ?_, ?_⟩
  · intro s hne hh
    cases hs : s.data with
    | nil => exact absurd (eq_empty_of_data_nil s hs) hne
    | cons c t =>
      have hc : c ≠ '\n' := fun hceq => hh (by rw [hs, hceq]; rfl)
      rw [prefixNewline_of_cons s c t hs, if_pos hc]
  · intro s hh
    cases hs : s.data with
    | nil =>
      rw [hs] at hh
      simp at hh
    | cons c t =>
      have hc : c = '\n' := by
        rw [hs] at hh
        simpa using hh
      rw [prefixNewline_of_cons s c t hs, if_neg (by simp [hc])]
  · intro m h
    unfold dockercompose.addServiceSpacing
    by_cases hemp : m.content.isEmpty
    · rw [if_pos (Or.inr hemp)]
      rw [List.isEmpty_iff.mp hemp]
      exact ⟨rfl, rfl⟩
    · rw [if_neg (by simp [h, hemp]), content_setContent]
      exact dockercompose.pairsOf_spaceKeysAux_zero m.content
  · intro n h
    unfold dockercompose.sortMappingNode
    by_cases hemp : n.content.isEmpty
    · rw [if_pos (Or.inr hemp)]
      rw [List.isEmpty_iff.mp hemp]
      exact ⟨by simp [pairsOf], by simp [pairsOf]⟩
    · rw [if_neg (by simp [h, hemp])]
      simp only [if_true, content_setContent, pairsOf_flattenPairs]
      cases hs : sliceStable lessPair (dockercompose.buildPairs true n.content) with
      | nil =>
        simp [dockercompose.injectTopHeads]
      | cons p rest =>
        simp only [dockercompose.injectTopHeads, List.map_cons, List.map_map,
          List.drop_succ_cons, List.drop_zero, List.take_succ_cons,
          List.take_zero]
        constructor
        · intro q hq
          obtain ⟨r, _, rfl⟩ := List.mem_map.mp hq
          simp only [Function.comp_apply]
          rw [headComment_setHeadComment]
          exact prefixNewline_head _
        · intro q hq
          rw [List.mem_singleton] at hq
          subst hq
          have hpmem : p ∈ dockercompose.buildPairs true n.content := by
            refine (sliceStable_perm lessPair _).subset ?_
            rw [hs]
            exact List.mem_cons_self p rest
          exact dockercompose.buildPairsAux_key_mem true n.content 0 p hpmem

/-- A services block with three uncommented entries. -/
def svcThree : Node := mp [sc "a", sc "1", sc "b", sc "2", sc "c", sc "3"]

theorem C8_witness :
    (pairsOf (dockercompose.addServiceSpacing svcThree).content).head? =
      (pairsOf svcThree.content).head? ∧
    (pairsOf (dockercompose.addServiceSpacing svcThree).content).drop 1 =
      ((pairsOf svcThree.content).drop 1).map
        (fun p => (p.1.setHeadComment (prefixNewline p.1.headComment), p.2)) :=
  C8_spacing_injection.2.2.2.2.1 svcThree (by decide)

namespace dockercompose

theorem envFold_map : ∀ (items : List Node) (ks : List String)
    (m : List (String × String)),
    (items.foldl envFoldStep (ks, m)).2 = (parsedOf items).reverse ++ m
  | [], ks, m => by simp [parsedOf]
  | item :: rest, ks, m => by
    by_cases hk : item.kind = Kind.scalar
    · cases hp : parseEnvVar item.value with
      | none =>
        have hstep : envFoldStep (ks, m) item = (ks, m) := by
          unfold envFoldStep
          rw [if_neg (by simp [hk]), hp]
        have hpars : parsedOf (item :: rest) = parsedOf rest := by
          simp [parsedOf, List.filterMap_cons, hk, hp]
        rw [List.foldl_cons, hstep, hpars]
        exact envFold_map rest ks m
      | some kv =>
        obtain ⟨k, v⟩ := kv
        have hstep : envFoldStep (ks, m) item =
            ((if (m.lookup k).isSome = true then ks else ks ++ [k]),
              (k, v) :: m) := by
          unfold envFoldStep
          rw [if_neg (by simp [hk]), hp]
        have hpars : parsedOf (item :: rest) = (k, v) :: parsedOf rest := by
          simp [parsedOf, List.filterMap_cons, hk, hp]
        rw [List.foldl_cons, hstep, hpars,
          envFold_map rest _ ((k, v) :: m)]
        simp
    · have hstep : envFoldStep (ks, m) item = (ks, m) := by
        unfold envFoldStep
        rw [if_pos hk]
      have hpars : parsedOf (item :: rest) = parsedOf rest := by
        simp [parsedOf, List.filterMap_cons, hk]
      rw [List.foldl_cons, hstep, hpars]
      exact envFold_map rest ks m

theorem lookup_cons_isSome (k k' v : String) (m : List (String × String)) :
    ((((k, v) :: m).lookup k').isSome = true) ↔
      (k' = k ∨ (m.lookup k').isSome = true) := by
  by_cases he : k' = k
  · simp only [List.lookup]
    rw [show (k' == k) = true from beq_iff_eq.mpr he]
    simp [he]
  · simp only [List.lookup]
    rw [show (k' == k) = false from beq_eq_false_iff_ne.mpr he]
    simp [he]

theorem contains_eq_decide_mem (l : List String) (a : String) :
    l.contains a = decide (a ∈ l) := List.elem_eq_mem a l

theorem not_contains_append_singleton (ks : List String) (k a : String) :
    (!(ks ++ [k]).contains a) = ((a != k) && !ks.contains a) := by
  by_cases h1 : a ∈ ks <;> by_cases h2 : a = k <;>
    simp [contains_eq_decide_mem, h1, h2]

theorem envFold_keys : ∀ (items : List Node) (ks : List String)
    (m : List (String × String)),
    (∀ k, (m.lookup k).isSome = true ↔ k ∈ ks) →
    (items.foldl envFoldStep (ks, m)).1 =
      ks ++ firstSeenKeys ((parsedOf items).filter fun p => !ks.contains p.1)
  | [], ks, m, _ => by simp [parsedOf, firstSeenKeys]
  | item :: rest, ks, m, hinv => by
    by_cases hk : item.kind = Kind.scalar
    · cases hp : parseEnvVar item.value with
      | none =>
        have hstep : envFoldStep (ks, m) item = (ks, m) := by
          unfold envFoldStep
          rw [if_neg (by simp [hk]), hp]
        have hpars : parsedOf (item :: rest) = parsedOf rest := by
          simp [parsedOf, List.filterMap_cons, hk, hp]
        rw [List.foldl_cons, hstep, hpars]
        exact envFold_keys rest ks m hinv
      | some kv =>
        obtain ⟨k, v⟩ := kv
        have hstep : envFoldStep (ks, m) item =
            ((if (m.lookup k).isSome = true then ks else ks ++ [k]),
              (k, v) :: m) := by
          unfold envFoldStep
          rw [if_neg (by simp [hk]), hp]
        have hpars : parsedOf (item :: rest) = (k, v) :: parsedOf rest := by
          simp [parsedOf, List.filterMap_cons, hk, hp]
        rw [List.foldl_cons, hstep, hpars]
        by_cases hmem : (m.lookup k).isSome = true
        · rw [if_pos hmem]
          have hks : k ∈ ks := (hinv k).mp hmem
          have hinv2 : ∀ k', (((k, v) :: m).lookup k').isSome = true ↔ k' ∈ ks := by
            intro k'
            rw [lookup_cons_isSome k k' v m]
            constructor
            · rintro (rfl | hx)
              · exact hks
              · exact (hinv k').mp hx
            · intro hx
              exact Or.inr ((hinv k').mpr hx)
          rw [envFold_keys rest ks ((k, v) :: m) hinv2]
          have hcont : (!ks.contains k) = false := by
            rw [contains_eq_decide_mem, decide_eq_true hks]
            rfl
          rw [List.filter_cons_of_neg (by rw [hcont]; simp)]
        · rw [if_neg hmem]
          have hks : k ∉ ks := fun hx => hmem ((hinv k).mpr hx)
          have hinv2 : ∀ k', (((k, v) :: m).lookup k').isSome = true ↔
              k' ∈ ks ++ [k] := by
            intro k'
            rw [lookup_cons_isSome k k' v m]
            simp only [List.mem_append, List.mem_singleton]
            constructor
            · rintro (rfl | hx)
              · exact Or.inr rfl
              · exact Or.inl ((hinv k').mp hx)
            · rintro (hx | rfl)
              · exact Or.inr ((hinv k').mpr hx)
              · exact Or.inl rfl
          rw [envFold_keys rest (ks ++ [k]) ((k, v) :: m) hinv2]
          have hcont : (!ks.contains k) = true := by
            simp only [contains_eq_decide_mem, Bool.not_eq_true', decide_eq_false_iff_not]
            exact hks
          rw [List.filter_cons_of_pos (by rw [hcont])]
          rw [show firstSeenKeys ((k, v) ::
              ((parsedOf rest).filter fun p => !ks.contains p.1)) =
            k :: firstSeenKeys (((parsedOf rest).filter
              fun p => !ks.contains p.1).filter fun q => q.1 != k)
            from by rw [firstSeenKeys]]
          rw [List.filter_filter]
          have hfc : ((parsedOf rest).filter
              fun a => (a.1 != k) && (!ks.contains a.1)) =
              ((parsedOf rest).filter fun p => !(ks ++ [k]).contains p.1) := by
            refine List.filter_congr ?_
            intro a _
            rw [not_contains_append_singleton]
          rw [hfc]
          simp
    · have hstep : envFoldStep (ks, m) item = (ks, m) := by
        unfold envFoldStep
        rw [if_pos hk]
      have hpars : parsedOf (item :: rest) = parsedOf rest := by
        simp [parsedOf, List.filterMap_cons, hk]
      rw [List.foldl_cons, hstep, hpars]
      exact envFold_keys rest ks m hinv

end dockercompose

theorem firstSeenKeys_nil : firstSeenKeys [] = [] := by
  rw [firstSeenKeys]

theorem firstSeenKeys_cons (k v : String) (l : List (String × String)) :
    firstSeenKeys ((k, v) :: l) =
      k :: firstSeenKeys (l.filter fun q => q.1 != k) := by
  rw [firstSeenKeys]

theorem envFold_characterization (items : List Node) :
    items.foldl dockercompose.envFoldStep ([], []) =
      (firstSeenKeys (parsedOf items), (parsedOf items).reverse) := by
  refine Prod.ext ?_ ?_
  · rw [dockercompose.envFold_keys items [] [] (by intro k; simp [List.lookup])]
    rw [show ((parsedOf items).filter
        fun p => !(([] : List String)).contains p.1) = parsedOf items
      from List.filter_eq_self.mpr fun a _ => rfl]
    simp
  · rw [dockercompose.envFold_map items [] []]
    simp

/-- C6: environment normalization.  Only sequences are transformed; the
transform is skipped exactly when zero items parse (non-scalar items and
items without an equals sign or with an empty key are skipped silently);
otherwise the node becomes a mapping (tag !!map, default style, its own
comments and value kept) listing the parsed keys in first-seen order with
each key's last value, keys emitted unquoted and values double-quoted iff
shouldQuoteValue holds — which is exactly: empty, contains a space or tab,
parses as a 64-bit integer or float, contains a special YAML character,
starts with a quote character, or lower-cases to a boolean-like literal. -/
theorem C6_environment_normalization :
    (∀ n : Node, n.kind ≠ Kind.sequence →
      dockercompose.normalizeEnvironment n = n) ∧
    (∀ n : Node, n.kind = Kind.sequence → parsedOf n.content = [] →
      dockercompose.normalizeEnvironment n = n) ∧
    (∀ n : Node, n.kind = Kind.sequence → parsedOf n.content ≠ [] →
      dockercompose.normalizeEnvironment n =
        Node.mk Kind.mapping 0 "!!map" n.value n.headComment n.lineComment
          n.footComment
          (((firstSeenKeys (parsedOf n.content)).map fun key =>
            let v := (((parsedOf n.content).reverse).lookup key).getD ""
            [Node.mk Kind.scalar 0 "!!str" key "" "" "" [],
             Node.mk Kind.scalar
               (if dockercompose.shouldQuoteValue v then DoubleQuotedStyle else 0)
               "!!str" v "" "" "" []]).flatten)) ∧
    (∀ n : Node, dockercompose.normalizeValues n "environment" =
      dockercompose.normalizeEnvironment n) ∧
    (∀ s chars : String, containsAny s chars = true ↔
      ∃ c ∈ s.data, c ∈ chars.data) ∧
    (∀ v : String, dockercompose.shouldQuoteValue v = true ↔
      (v = "" ∨ containsAny v " \t" = true ∨
        dockercompose.isNumericLike v = true ∨
        containsAny v dockercompose.specialChars = true ∨
        dockercompose.startsWithQuoteChar v = true ∨
        String.mk (v.data.map Char.toLower) ∈ dockercompose.yamlBools)) := by
  refine ⟨?_, ?_, ?_, fun n => rfl, ?_, ?_⟩
  · intro n h
    unfold dockercompose.normalizeEnvironment
    rw [if_pos h]
  · intro n hseq hnil
    unfold dockercompose.normalizeEnvironment
    rw [if_neg (by simp [hseq]), envFold_characterization, hnil,
      firstSeenKeys_nil]
    rfl
  · intro n hseq hne
    unfold dockercompose.normalizeEnvironment
    rw [if_neg (by simp [hseq]), envFold_characterization]
    cases hp : parsedOf n.content with
    | nil => exact absurd hp hne
    | cons q l =>
      obtain ⟨qk, qv⟩ := q
      rw [firstSeenKeys_cons]
      rfl
  · intro s chars
    simp [containsAny, List.any_eq_true, List.contains]
  · intro v
    unfold dockercompose.shouldQuoteValue
    by_cases h1 : v = ""
    · simp [h1]
    · rw [if_neg h1]
      by_cases h2 : containsAny v " \t" = true
      · simp [h1, h2]
      · rw [if_neg h2]
        by_cases h3 : dockercompose.isNumericLike v = true
        · simp [h1, h2, h3]
        · rw [if_neg h3]
          by_cases h4 : containsAny v dockercompose.specialChars = true
          · simp [h1, h2, h3, h4]
          · rw [if_neg h4]
            by_cases h5 : dockercompose.startsWithQuoteChar v = true
            · simp [h1, h2, h3, h4, h5]
            · rw [if_neg h5]
              simp [h1, h2, h3, h4, h5, List.contains]

/-- The environment sequence of concrete scenario 2. -/
def envScenario : Node := .mk Kind.sequence 0 "!!seq" "" "" "" ""
  [sc "A=1", sc "B=hello world", sc "FLAG=true"]

theorem C6_witness :
    dockercompose.normalizeEnvironment envScenario =
      Node.mk Kind.mapping 0 "!!map" envScenario.value envScenario.headComment
        envScenario.lineComment envScenario.footComment
        (((firstSeenKeys (parsedOf envScenario.content)).map fun key =>
          let v := (((parsedOf envScenario.content).reverse).lookup key).getD ""
          [Node.mk Kind.scalar 0 "!!str" key "" "" "" [],
           Node.mk Kind.scalar
             (if dockercompose.shouldQuoteValue v then DoubleQuotedStyle else 0)
             "!!str" v "" "" "" []]).flatten) ∧
    dockercompose.normalizeEnvironment (sc "x") = sc "x" :=
  ⟨C6_environment_normalization.2.2.1 envScenario (by decide) (by decide),
   C6_environment_normalization.1 (sc "x") (by decide)⟩

theorem tag_setContent (n : Node) (c : List Node) : (n.setContent c).tag = n.tag := by
  cases n
  rfl

theorem value_setContent (n : Node) (c : List Node) :
    (n.setContent c).value = n.value := by
  cases n
  rfl

theorem style_setContent (n : Node) (c : List Node) :
    (n.setContent c).style = n.style := by
  cases n
  rfl

theorem headComment_setContent (n : Node) (c : List Node) :
    (n.setContent c).headComment = n.headComment := by
  cases n
  rfl

theorem lineComment_setContent (n : Node) (c : List Node) :
    (n.setContent c).lineComment = n.lineComment := by
  cases n
  rfl

theorem footComment_setContent (n : Node) (c : List Node) :
    (n.setContent c).footComment = n.footComment := by
  cases n
  rfl

theorem wfNode_eq (n : Node) : wfNode n =
    ((!(n.kind == Kind.mapping) || n.content.length % 2 == 0) &&
      wfList n.content) := by
  cases n
  rfl

theorem wfList_cons (n : Node) (ns : List Node) :
    wfList (n :: ns) = (wfNode n && wfList ns) := rfl

theorem wfList_mem : ∀ (c : List Node), wfList c = true →
    ∀ x ∈ c, wfNode x = true
  | [], _, x, hx => by simp at hx
  | n :: ns, h, x, hx => by
    rw [wfList_cons, Bool.and_eq_true] at h
    rcases List.mem_cons.mp hx with rfl | hx
    · exact h.1
    · exact wfList_mem ns h.2 x hx

theorem wf_setHeadComment (n : Node) (h : String) :
    wfNode (n.setHeadComment h) = wfNode n := by
  cases n
  rfl

theorem collectAllList_cons (n : Node) (ns : List Node) :
    collectAllList (n :: ns) = collectAll n ++ collectAllList ns := rfl

theorem collect_flattenPairs : ∀ l : List Pair,
    collectAllList (flattenPairs (l.map fun p => (p.key, p.value))) =
      (l.map fun p => collectAll p.key ++ collectAll p.value).flatten
  | [] => rfl
  | p :: rest => by
    simp only [List.map_cons, flattenPairs, collectAllList_cons,
      List.flatten_cons, collect_flattenPairs rest, List.append_assoc]

theorem flattenPairs_mem : ∀ (l : List (Node × Node)) (x : Node),
    x ∈ flattenPairs l → ∃ p ∈ l, x = p.1 ∨ x = p.2
  | [], x, hx => by simp [flattenPairs] at hx
  | (k, v) :: rest, x, hx => by
    simp only [flattenPairs, List.mem_cons] at hx
    rcases hx with rfl | rfl | hx
    · exact ⟨(x, v), by simp⟩
    · exact ⟨(k, x), by simp⟩
    · obtain ⟨p, hp, hor⟩ := flattenPairs_mem rest x hx
      exact ⟨p, List.mem_cons_of_mem _ hp, hor⟩

namespace traefik

theorem injectTopHeads_collect (l : List Pair) :
    ((injectTopHeads l).map fun p => collectAll p.key ++ collectAll p.value) =
      l.map fun p => collectAll p.key ++ collectAll p.value := by
  cases l with
  | nil => rfl
  | cons p rest =>
    simp only [injectTopHeads, List.map_cons, List.map_map, List.cons.injEq,
      true_and]
    refine List.map_congr_left ?_
    intro q _
    simp only [Function.comp_apply, collectAll_setHead_prefix]

theorem injectTopHeads_mem (l : List Pair) (q : Pair)
    (hq : q ∈ injectTopHeads l) :
    ∃ r ∈ l, q.value = r.value ∧
      (q.key = r.key ∨
        q.key = r.key.setHeadComment (prefixNewline r.key.headComment)) := by
  cases l with
  | nil => simp [injectTopHeads] at hq
  | cons p rest =>
    simp only [injectTopHeads, List.mem_cons] at hq
    rcases hq with rfl | hq
    · exact ⟨q, by simp⟩
    · obtain ⟨r, hr, rfl⟩ := List.mem_map.mp hq
      exact ⟨r, List.mem_cons_of_mem _ hr, rfl, Or.inr rfl⟩

theorem buildPairs_collect (b : Bool) :
    ∀ (c : List Node) (i : Nat), c.length % 2 = 0 →
    ((buildPairsAux b i c).map
      fun p => collectAll p.key ++ collectAll p.value).flatten =
      collectAllList c
  | [], _, _ => rfl
  | [_], _, h => by simp at h
  | k :: v :: rest, i, h => by
    simp only [buildPairsAux, List.map_cons, List.flatten_cons,
      collectAllList_cons, List.append_assoc]
    rw [buildPairs_collect b rest (i + 2)
      (by simp only [List.length_cons] at h; omega)]

theorem sort_collect (n : Node) (b : Bool) (hwf : wfNode n = true) :
    (collectAll (sortMappingNode n b)).Perm (collectAll n) := by
  unfold sortMappingNode
  by_cases hg : n.kind ≠ Kind.mapping ∨ n.content.isEmpty
  · rw [if_pos hg]
  · rw [if_neg hg]
    push_neg at hg
    have heven : n.content.length % 2 = 0 := by
      rw [wfNode_eq, Bool.and_eq_true] at hwf
      have h1 := hwf.1
      rw [show (n.kind == Kind.mapping) = true from beq_iff_eq.mpr hg.1] at h1
      simpa using h1
    rw [collectAll_setContent, collectAll_eq n]
    refine List.Perm.cons _ ?_
    have hbase : ∀ l : List Pair,
        collectAllList (flattenPairs (l.map fun p => (p.key, p.value))) =
          (l.map fun p => collectAll p.key ++ collectAll p.value).flatten :=
      collect_flattenPairs
    by_cases hb : b = true
    · subst hb
      rw [if_pos rfl, hbase, injectTopHeads_collect]
      calc ((sliceStable lessPair (buildPairs true n.content)).map
              fun p => collectAll p.key ++ collectAll p.value).flatten.Perm
            ((buildPairs true n.content).map
              fun p => collectAll p.key ++ collectAll p.value).flatten :=
          ((sliceStable_perm lessPair _).map _).flatten
        _ = collectAllList n.content := buildPairs_collect true n.content 0 heven
    · rw [if_neg hb, hbase]
      calc ((sliceStable lessPair (buildPairs b n.content)).map
              fun p => collectAll p.key ++ collectAll p.value).flatten.Perm
            ((buildPairs b n.content).map
              fun p => collectAll p.key ++ collectAll p.value).flatten :=
          ((sliceStable_perm lessPair _).map _).flatten
        _ = collectAllList n.content := buildPairs_collect b n.content 0 heven

theorem sort_children_wf (n : Node) (b : Bool) (hwf : wfNode n = true) :
    ∀ x ∈ (sortMappingNode n b).content, wfNode x = true := by
  have hch : ∀ x ∈ n.content, wfNode x = true := by
    refine wfList_mem n.content ?_
    rw [wfNode_eq, Bool.and_eq_true] at hwf
    exact hwf.2
  unfold sortMappingNode
  by_cases hg : n.kind ≠ Kind.mapping ∨ n.content.isEmpty
  · rw [if_pos hg]
    exact hch
  · rw [if_neg hg, content_setContent]
    intro x hx
    obtain ⟨p, hp, hor⟩ := flattenPairs_mem _ x hx
    obtain ⟨q, hq, rfl⟩ := List.mem_map.mp hp
    have hq2 : q ∈ (if b then injectTopHeads (sliceStable lessPair
        (buildPairs b n.content)) else sliceStable lessPair
        (buildPairs b n.content)) := hq
    have hqsorted : ∃ r ∈ sliceStable lessPair (buildPairs b n.content),
        q.value = r.value ∧ (q.key = r.key ∨
          q.key = r.key.setHeadComment (prefixNewline r.key.headComment)) := by
      by_cases hb : b = true
      · subst hb
        rw [if_pos rfl] at hq2
        exact injectTopHeads_mem _ q hq2
      · rw [if_neg hb] at hq2
        exact ⟨q, hq2, rfl, Or.inl rfl⟩
    obtain ⟨r, hr, hval, hkey⟩ := hqsorted
    have hrbuild : r ∈ buildPairs b n.content :=
      (sliceStable_perm lessPair _).subset hr
    have hmem := buildPairsAux_mem b n.content 0 r hrbuild
    rcases hor with rfl | rfl
    · rcases hkey with hk | hk
      · rw [hk]
        exact hch r.key hmem.1
      · rw [hk, wf_setHeadComment]
        exact hch r.key hmem.1
    · rw [hval]
      exact hch r.value hmem.2

theorem walk_collect : ∀ (fuel : Nat) (b : Bool) (n : Node),
    wfNode n = true →
    (collectAll (formatNode fuel n b)).Perm (collectAll n) := by
  intro fuel
  induction fuel with
  | zero =>
    intro b n _
    exact List.Perm.refl _
  | succ fuel ih =>
    have ihList : ∀ (l : List Node), (∀ x ∈ l, wfNode x = true) →
        (collectAllList (l.map fun c => formatNode fuel c false)).Perm
          (collectAllList l) := by
      intro l hl
      induction l with
      | nil => exact List.Perm.refl _
      | cons x xs ihx =>
        simp only [List.map_cons, collectAllList_cons]
        exact (ih false x (hl x (by simp))).append
          (ihx fun y hy => hl y (List.mem_cons_of_mem x hy))
    intro b n hwf
    unfold formatNode
    by_cases hm : n.kind = Kind.mapping
    · rw [if_pos hm]
      have h1 := sort_collect n b hwf
      have hwfc := sort_children_wf n b hwf
      by_cases hdoc : (b = true) ∧ (sortMappingNode n b).kind = Kind.document ∧
          ¬(sortMappingNode n b).content.isEmpty
      · rw [if_pos hdoc]
        cases hc : (sortMappingNode n b).content with
        | nil =>
          rw [hc] at hdoc
          simp at hdoc
        | cons first rest =>
          show (collectAll ((sortMappingNode n b).setContent
            (formatNode fuel first true :: rest))).Perm (collectAll n)
          rw [collectAll_setContent, collectAllList_cons]
          refine List.Perm.trans (List.Perm.cons _ (List.Perm.append
            (ih true first (hwfc first (by rw [hc]; simp)))
            (List.Perm.refl _))) ?_
          rw [← collectAllList_cons, ← hc, ← collectAll_eq]
          exact h1
      · rw [if_neg hdoc, collectAll_setContent]
        refine List.Perm.trans (List.Perm.cons _
          (ihList _ hwfc)) ?_
        rw [← collectAll_eq]
        exact h1
    · rw [if_neg hm]
      have hwfc : ∀ x ∈ n.content, wfNode x = true := by
        refine wfList_mem n.content ?_
        rw [wfNode_eq, Bool.and_eq_true] at hwf
        exact hwf.2
      by_cases hdoc : (b = true) ∧ n.kind = Kind.document ∧
          ¬n.content.isEmpty
      · rw [if_pos hdoc]
        cases hc : n.content with
        | nil =>
          rw [hc] at hdoc
        | cons first rest =>
          show (collectAll (n.setContent
            (formatNode fuel first true :: rest))).Perm (collectAll n)
          rw [collectAll_setContent, collectAllList_cons]
          refine List.Perm.trans (List.Perm.cons _ (List.Perm.append
            (ih true first (hwfc first (by rw [hc]; simp)))
            (List.Perm.refl _))) ?_
          rw [← collectAllList_cons, ← hc, ← collectAll_eq]
      · rw [if_neg hdoc, collectAll_setContent]
        refine List.Perm.trans (List.Perm.cons _
          (ihList _ hwfc)) ?_
        rw [← collectAll_eq]

end traefik

/-- A small traefik document: root mapping with an http section and a log
key. -/
def trafDoc : Node := .mk Kind.document 0 "" "" "" "" ""
  [mp [sc "http", mp [sc "middlewares", sc "m", sc "routers", sc "r"],
       sc "log", sc "x"]]

/-- C10: the Traefik formatter is value-preserving.  Its sorter at
non-top level is a pure permutation of the (key node, value node) pairs;
the sorter never touches the sorted node's own kind, tag, value, style or
comments; and over any well-formed tree the whole walk preserves, as a
multiset over all nodes, every node's kind, tag, value, style, line and
foot comments, and its head comment up to one prepended newline marker —
so no scalar's value, tag or quoting style is changed and no environment
or port normalization happens; the only mutations are mapping-pair
reordering and the top-level newline markers. -/
theorem C10_traefik_value_preserving :
    (∀ n : Node, (pairsOf (traefik.sortMappingNode n false).content).Perm
      (pairsOf n.content)) ∧
    (∀ (n : Node) (b : Bool),
      (traefik.sortMappingNode n b).kind = n.kind ∧
      (traefik.sortMappingNode n b).tag = n.tag ∧
      (traefik.sortMappingNode n b).value = n.value ∧
      (traefik.sortMappingNode n b).style = n.style ∧
      (traefik.sortMappingNode n b).headComment = n.headComment ∧
      (traefik.sortMappingNode n b).lineComment = n.lineComment ∧
      (traefik.sortMappingNode n b).footComment = n.footComment) ∧
    (∀ (fuel : Nat) (b : Bool) (n : Node), wfNode n = true →
      (collectAll (traefik.formatNode fuel n b)).Perm (collectAll n)) := by
  refine ⟨?_, ?_, traefik.walk_collect⟩
  · intro n
    unfold traefik.sortMappingNode
    by_cases hg : n.kind ≠ Kind.mapping ∨ n.content.isEmpty
    · rw [if_pos hg]
    · rw [if_neg hg]
      simp only [Bool.false_eq_true, if_false, content_setContent,
        pairsOf_flattenPairs]
      calc ((sliceStable lessPair (traefik.buildPairs false n.content)).map
              fun p => (p.key, p.value)).Perm
            ((traefik.buildPairs false n.content).map fun p => (p.key, p.value)) :=
          (sliceStable_perm lessPair _).map _
        _ = pairsOf n.content := traefik.buildPairsAux_toKV false n.content 0
  · intro n b
    unfold traefik.sortMappingNode
    by_cases hg : n.kind ≠ Kind.mapping ∨ n.content.isEmpty
    · rw [if_pos hg]
      exact ⟨rfl, rfl, rfl, rfl, rfl, rfl, rfl⟩
    · rw [if_neg hg]
      exact ⟨kind_setContent _ _, tag_setContent _ _, value_setContent _ _,
        style_setContent _ _, headComment_setContent _ _,
        lineComment_setContent _ _, footComment_setContent _ _⟩

theorem C10_witness :
    (collectAll (traefik.formatNode 6 trafDoc true)).Perm (collectAll trafDoc) :=
  C10_traefik_value_preserving.2.2 6 true trafDoc (by decide)
